import Mathlib

/-!
Verification development for the context-aggregation and extraction-parsing
core of the Gwriter backend.

The definitions below are a shallow embedding of
src/backend/services/character_extractor.py and
src/backend/services/context_aggregator.py. Strings are modeled as lists of
characters. The three Python regular expressions used by the extractor are
modeled by dedicated scanning functions that reproduce the leftmost-match,
greedy/lazy backtracking semantics of those exact patterns; the character
classes are the ASCII fragments of the Python classes, which coincide with
the Python behaviour on ASCII input.
-/

/-- ASCII fragment of the whitespace class matched by a backslash-s in a
Python pattern and trimmed by Python str.strip. -/
def pySpace (c : Char) : Bool :=
  c = ' ' || c = '\t' || c = '\n' || c = '\r' || c = '\x0b' || c = '\x0c'

/-- View a string literal as the list of its characters. -/
def txt (s : String) : List Char := s.data

/-- Python str.lstrip. -/
def lstrip (l : List Char) : List Char := l.dropWhile pySpace

/-- Python str.rstrip. -/
def rstrip (l : List Char) : List Char := (l.reverse.dropWhile pySpace).reverse

/-- Python str.strip. -/
def pyStrip (l : List Char) : List Char := rstrip (lstrip l)

/-!
The primary pass of CharacterExtractor.parse_extraction splits the input on
the MULTILINE pattern anchored at a line start: two hash marks, one or more
whitespace characters, then a captured group of one or more non-newline
characters ending at the line end.
-/

/-- One match attempt of the section-heading pattern at a line-start
position; the input is the text from that position on. Returns the captured
group and the remainder of the text after the match end, or none if no
match starts exactly here. When the whitespace run after the two hash marks
reaches the end of the input (second branch), the greedy whitespace
repetition backtracks until the captured group can take one non-newline
character, so the group becomes the last non-newline whitespace character
of the run, any newlines after it are left unconsumed, and at least one
whitespace character must remain before it. -/
def p1Match (l : List Char) : Option (List Char × List Char) :=
  match l with
  | a :: b :: r =>
    if a = '#' ∧ b = '#' then
      let ws := r.takeWhile pySpace
      let r' := r.dropWhile pySpace
      if ws.isEmpty then none
      else if r'.isEmpty then
        let nl := ws.reverse.takeWhile (fun d => d == '\n')
        match ws.reverse.dropWhile (fun d => d == '\n') with
        | [] => none
        | c' :: rest' =>
          if rest'.isEmpty then none
          else some ([c'], List.replicate nl.length '\n')
      else
        some (r'.takeWhile (fun d => d != '\n'), r'.dropWhile (fun d => d != '\n'))
    else none
  | _ => none

theorem dropWhile_length_le (p : Char → Bool) (l : List Char) :
    (l.dropWhile p).length ≤ l.length :=
  (List.dropWhile_sublist p).length_le

theorem takeWhile_length_le (p : Char → Bool) (l : List Char) :
    (l.takeWhile p).length ≤ l.length :=
  (List.takeWhile_sublist p).length_le

theorem p1Match_some_length {l : List Char} {g rest : List Char}
    (h : p1Match l = some (g, rest)) : rest.length < l.length := by
  match l with
  | [] => simp [p1Match] at h
  | [a] => simp [p1Match] at h
  | a :: b :: r =>
    simp only [p1Match] at h
    split at h
    · split at h
      · exact absurd h (by simp)
      · split at h
        · split at h
          · exact absurd h (by simp)
          · split at h
            · exact absurd h (by simp)
            · rw [Option.some.injEq] at h
              have h2 : rest = List.replicate (((r.takeWhile pySpace).reverse.takeWhile (fun d => d == '\n')).length) '\n' :=
                (Prod.mk.injEq _ _ _ _ ▸ h).2.symm
              have hle : (((r.takeWhile pySpace).reverse.takeWhile (fun d => d == '\n')).length) ≤ r.length := by
                calc (((r.takeWhile pySpace).reverse.takeWhile (fun d => d == '\n')).length)
                    ≤ (r.takeWhile pySpace).reverse.length := takeWhile_length_le _ _
                  _ = (r.takeWhile pySpace).length := List.length_reverse _
                  _ ≤ r.length := takeWhile_length_le _ _
              simp only [h2, List.length_replicate, List.length_cons]
              omega
        · rw [Option.some.injEq] at h
          have h2 : rest = (r.dropWhile pySpace).dropWhile (fun d => d != '\n') :=
            (Prod.mk.injEq _ _ _ _ ▸ h).2.symm
          have hle : rest.length ≤ r.length := by
            rw [h2]
            calc ((r.dropWhile pySpace).dropWhile (fun d => d != '\n')).length
                ≤ (r.dropWhile pySpace).length := dropWhile_length_le _ _
              _ ≤ r.length := dropWhile_length_le _ _
          simp only [List.length_cons]
          omega
    · exact absurd h (by simp)

/-- Fuel-indexed scanner for the split performed by the primary pass: scan
the text for non-overlapping heading matches (each starting at a line
start), and return the preamble before the first match together with the
list of (captured name, following chunk) pairs, the chunk being the text
between one match and the next. The Boolean tracks whether the current
position is a line start. The fuel only forces structural recursion; it is
never exhausted when it starts at least at the length of the text. -/
def splitHeadsGo : Nat → List Char → Bool → List Char × List (List Char × List Char)
  | 0, _, _ => ([], [])
  | _ + 1, [], _ => ([], [])
  | fuel + 1, c :: cs, atStart =>
    if atStart then
      match p1Match (c :: cs) with
      | some (g, rest) =>
        let p := splitHeadsGo fuel rest false
        ([], (g, p.1) :: p.2)
      | none =>
        let p := splitHeadsGo fuel cs (c == '\n')
        (c :: p.1, p.2)
    else
      let p := splitHeadsGo fuel cs (c == '\n')
      (c :: p.1, p.2)

theorem splitHeadsGo_congr : ∀ (f1 f2 : Nat) (l : List Char) (b : Bool),
    l.length ≤ f1 → l.length ≤ f2 → splitHeadsGo f1 l b = splitHeadsGo f2 l b := by
  intro f1
  induction f1 with
  | zero =>
    intro f2 l b h1 h2
    have hl : l = [] := by cases l <;> simp_all
    subst hl
    cases f2 <;> rfl
  | succ f ih =>
    intro f2 l b h1 h2
    cases l with
    | nil => cases f2 <;> rfl
    | cons c cs =>
      cases f2 with
      | zero => simp at h2
      | succ f2' =>
        simp only [splitHeadsGo]
        simp only [List.length_cons] at h1 h2
        cases hp : p1Match (c :: cs) with
        | some gr =>
          obtain ⟨g, rest⟩ := gr
          have hl := p1Match_some_length hp
          simp only [List.length_cons] at hl
          cases b <;> simp only [if_true, if_false, Bool.false_eq_true, ite_false, ite_true]
          · rw [ih f2' cs (c == '\n') (by omega) (by omega)]
          · rw [ih f2' rest false (by omega) (by omega)]
        | none =>
          cases b <;> simp only [if_true, if_false, Bool.false_eq_true, ite_false, ite_true]
          · rw [ih f2' cs (c == '\n') (by omega) (by omega)]
          · rw [ih f2' cs (c == '\n') (by omega) (by omega)]

/-- The split performed by the primary pass, with the fuel fixed at the
length of the text, which the scanner never exhausts. -/
def splitHeads (l : List Char) (atStart : Bool) : List Char × List (List Char × List Char) :=
  splitHeadsGo l.length l atStart

theorem splitHeads_nil (b : Bool) : splitHeads [] b = ([], []) := rfl

theorem splitHeads_cons (c : Char) (cs : List Char) (b : Bool) :
    splitHeads (c :: cs) b =
      if b then
        match p1Match (c :: cs) with
        | some (g, rest) =>
          let p := splitHeads rest false
          ([], (g, p.1) :: p.2)
        | none =>
          let p := splitHeads cs (c == '\n')
          (c :: p.1, p.2)
      else
        let p := splitHeads cs (c == '\n')
        (c :: p.1, p.2) := by
  show splitHeadsGo ((c :: cs).length) (c :: cs) b = _
  simp only [List.length_cons, splitHeadsGo]
  cases hp : p1Match (c :: cs) with
  | some gr =>
    obtain ⟨g, rest⟩ := gr
    have hl := p1Match_some_length hp
    simp only [List.length_cons] at hl
    cases b <;> simp only [if_true, if_false, Bool.false_eq_true, ite_false, ite_true]
    · rw [show splitHeadsGo cs.length cs (c == '\n') = splitHeads cs (c == '\n') from rfl]
    · rw [splitHeadsGo_congr cs.length rest.length rest false (by omega) (by omega)]
      rfl
  | none =>
    cases b <;> simp only [if_true, if_false, Bool.false_eq_true, ite_false, ite_true] <;>
      rw [show splitHeadsGo cs.length cs (c == '\n') = splitHeads cs (c == '\n') from rfl]

/-!
Within a section the code runs re.sub on the MULTILINE pattern: three hash
marks at a line start, one or more whitespace characters, a lazy run of
non-newline characters, the literal word Update, then zero or more
whitespace characters ending with a newline. Every non-overlapping match is
deleted.
-/

/-- The characters of the literal word Update. -/
def updChars : List Char := txt "Update"

/-- The tail of the deletion pattern after the literal Update: zero or more
whitespace characters ending with a newline, matched greedily, which
consumes the leading whitespace run of the remaining text up to and
including its last newline. Returns none when the run has no newline, in
which case the pattern fails at this occurrence. -/
def dropThroughLastNewline : List Char → Option (List Char)
  | [] => none
  | c :: cs =>
    if pySpace c then
      match dropThroughLastNewline cs with
      | some rest => some rest
      | none => if c = '\n' then some cs else none
    else none

theorem dropThroughLastNewline_length {l rest : List Char}
    (h : dropThroughLastNewline l = some rest) : rest.length < l.length := by
  induction l with
  | nil => simp [dropThroughLastNewline] at h
  | cons c cs ih =>
    simp only [dropThroughLastNewline] at h
    split at h
    · split at h
      · rename_i heq
        rw [Option.some.injEq] at h
        subst h
        have := ih heq
        simp only [List.length_cons]
        omega
      · split at h
        · rw [Option.some.injEq] at h
          simp [← h]
        · exact absurd h (by simp)
    · exact absurd h (by simp)

/-- The lazy scan for the word Update inside the current line: try the
occurrence at the current position first, then step one non-newline
character at a time. An occurrence succeeds only when the whitespace run
after it contains a newline. Returns the remainder of the text after the
full match. -/
def searchUpd : List Char → Option (List Char)
  | [] => none
  | c :: cs =>
    if updChars.isPrefixOf (c :: cs) then
      match dropThroughLastNewline ((c :: cs).drop 6) with
      | some rest => some rest
      | none => if c = '\n' then none else searchUpd cs
    else if c = '\n' then none else searchUpd cs

theorem searchUpd_length {l rest : List Char}
    (h : searchUpd l = some rest) : rest.length < l.length := by
  induction l with
  | nil => simp [searchUpd] at h
  | cons c cs ih =>
    simp only [searchUpd] at h
    split at h
    · split at h
      · rename_i heq
        rw [Option.some.injEq] at h
        subst h
        have := dropThroughLastNewline_length heq
        have hd : ((c :: cs).drop 6).length ≤ cs.length := by
          simp only [List.length_drop, List.length_cons]
          omega
        simp only [List.length_cons]
        omega
      · split at h
        · exact absurd h (by simp)
        · have := ih h
          simp only [List.length_cons]
          omega
    · split at h
      · exact absurd h (by simp)
      · have := ih h
        simp only [List.length_cons]
        omega

/-- One match attempt of the deletion pattern at a line-start position.
Returns the remainder of the text after the match end (the match always
ends just after a newline), or none. -/
def p2Match (l : List Char) : Option (List Char) :=
  match l with
  | a :: b :: c :: r =>
    if a = '#' ∧ b = '#' ∧ c = '#' then
      if (r.takeWhile pySpace).isEmpty then none
      else searchUpd (r.dropWhile pySpace)
    else none
  | _ => none

theorem p2Match_some_length {l rest : List Char}
    (h : p2Match l = some rest) : rest.length < l.length := by
  match l with
  | [] => simp [p2Match] at h
  | [a] => simp [p2Match] at h
  | [a, b] => simp [p2Match] at h
  | a :: b :: c :: r =>
    simp only [p2Match] at h
    split at h
    · split at h
      · exact absurd h (by simp)
      · have h1 := searchUpd_length h
        have h2 : (r.dropWhile pySpace).length ≤ r.length := dropWhile_length_le _ _
        simp only [List.length_cons]
        omega
    · exact absurd h (by simp)

/-- Fuel-indexed scanner for the re.sub pass over a section body: scan the
text, deleting every non-overlapping match of the deletion pattern (matches
can start only at line starts) and keeping every other character. The
Boolean tracks whether the current position is a line start; a deleted
match ends just after a newline, so scanning resumes at a line start. The
fuel only forces structural recursion. -/
def subUpdateGo : Nat → List Char → Bool → List Char
  | 0, l, _ => l
  | _ + 1, [], _ => []
  | fuel + 1, c :: cs, atStart =>
    if atStart then
      match p2Match (c :: cs) with
      | some rest => subUpdateGo fuel rest true
      | none => c :: subUpdateGo fuel cs (c == '\n')
    else c :: subUpdateGo fuel cs (c == '\n')

theorem subUpdateGo_congr : ∀ (f1 f2 : Nat) (l : List Char) (b : Bool),
    l.length ≤ f1 → l.length ≤ f2 → subUpdateGo f1 l b = subUpdateGo f2 l b := by
  intro f1
  induction f1 with
  | zero =>
    intro f2 l b h1 h2
    have hl : l = [] := by cases l <;> simp_all
    subst hl
    cases f2 <;> rfl
  | succ f ih =>
    intro f2 l b h1 h2
    cases l with
    | nil => cases f2 <;> rfl
    | cons c cs =>
      cases f2 with
      | zero => simp at h2
      | succ f2' =>
        simp only [subUpdateGo]
        simp only [List.length_cons] at h1 h2
        cases hp : p2Match (c :: cs) with
        | some rest =>
          have hl := p2Match_some_length hp
          simp only [List.length_cons] at hl
          cases b <;> simp only [if_true, if_false, Bool.false_eq_true, ite_false, ite_true]
          · rw [ih f2' cs (c == '\n') (by omega) (by omega)]
          · rw [ih f2' rest true (by omega) (by omega)]
        | none =>
          cases b <;> simp only [if_true, if_false, Bool.false_eq_true, ite_false, ite_true] <;>
            rw [ih f2' cs (c == '\n') (by omega) (by omega)]

/-- The re.sub pass over a section body, with the fuel fixed at the length
of the text, which the scanner never exhausts. -/
def subUpdate (l : List Char) (atStart : Bool) : List Char :=
  subUpdateGo l.length l atStart

theorem subUpdate_nil (b : Bool) : subUpdate [] b = [] := rfl

theorem subUpdate_cons (c : Char) (cs : List Char) (b : Bool) :
    subUpdate (c :: cs) b =
      if b then
        match p2Match (c :: cs) with
        | some rest => subUpdate rest true
        | none => c :: subUpdate cs (c == '\n')
      else c :: subUpdate cs (c == '\n') := by
  show subUpdateGo ((c :: cs).length) (c :: cs) b = _
  simp only [List.length_cons, subUpdateGo]
  cases hp : p2Match (c :: cs) with
  | some rest =>
    have hl := p2Match_some_length hp
    simp only [List.length_cons] at hl
    cases b <;> simp only [if_true, if_false, Bool.false_eq_true, ite_false, ite_true]
    · rfl
    · rw [subUpdateGo_congr cs.length rest.length rest true (by omega) (by omega)]
      rfl
  | none =>
    cases b <;> simp only [if_true, if_false, Bool.false_eq_true, ite_false, ite_true] <;> rfl

/-!
The fallback heuristic of parse_extraction: re.findall of a word-boundary
pattern capturing an uppercase-initial word of at least two letters,
followed greedily by further whitespace-separated such words. The ASCII
word characters are letters, digits and the underscore.
-/

def isUpperAZ (c : Char) : Bool := 'A' ≤ c && c ≤ 'Z'

def isLowerAZ (c : Char) : Bool := 'a' ≤ c && c ≤ 'z'

def isDigit09 (c : Char) : Bool := '0' ≤ c && c ≤ '9'

/-- ASCII fragment of the Python word-character class. -/
def wordChar (c : Char) : Bool := isUpperAZ c || isLowerAZ c || isDigit09 c || c = '_'

/-- One capitalized word: an uppercase letter followed by the maximal
nonempty run of lowercase letters. Returns the word and the rest. -/
def p3TakeWord (l : List Char) : Option (List Char × List Char) :=
  match l with
  | c :: cs =>
    if isUpperAZ c then
      let low := cs.takeWhile isLowerAZ
      if low.isEmpty then none
      else some (c :: low, cs.dropWhile isLowerAZ)
    else none
  | [] => none

theorem p3TakeWord_some_length {l w rest : List Char}
    (h : p3TakeWord l = some (w, rest)) : rest.length < l.length := by
  match l with
  | [] => simp [p3TakeWord] at h
  | c :: cs =>
    simp only [p3TakeWord] at h
    split at h
    · split at h
      · exact absurd h (by simp)
      · rw [Option.some.injEq] at h
        have h2 : rest = cs.dropWhile isLowerAZ := (Prod.mk.injEq _ _ _ _ ▸ h).2.symm
        have h3 : rest.length = (cs.dropWhile isLowerAZ).length := by rw [h2]
        have := dropWhile_length_le isLowerAZ cs
        simp only [List.length_cons]
        omega
    · exact absurd h (by simp)

/-- Fuel-indexed version of the greedy star of the fallback pattern: after
a word, either extend the chain with a whitespace run and a further word
(trying the longer chain first, and falling back to closing here when the
longer chain fails), or close the chain, which requires the next character
to fail the word-boundary test, that is, to be absent or a non-word
character. Returns the appended chain text and the rest. -/
def p3ChainAfterGo : Nat → List Char → Option (List Char × List Char)
  | 0, _ => none
  | fuel + 1, l =>
    if (l.takeWhile pySpace).isEmpty then
      match l with
      | [] => some ([], [])
      | c :: _ => if wordChar c then none else some ([], l)
    else
      match p3TakeWord (l.dropWhile pySpace) with
      | some (w, l') =>
        match p3ChainAfterGo fuel l' with
        | some (e, rest) => some (l.takeWhile pySpace ++ w ++ e, rest)
        | none => some ([], l)
      | none => some ([], l)

theorem length_takeWhile_add_dropWhile (p : Char → Bool) (l : List Char) :
    (l.takeWhile p).length + (l.dropWhile p).length = l.length := by
  rw [← List.length_append, List.takeWhile_append_dropWhile]

theorem p3ChainAfterGo_congr : ∀ (f1 f2 : Nat) (l : List Char),
    l.length < f1 → l.length < f2 → p3ChainAfterGo f1 l = p3ChainAfterGo f2 l := by
  intro f1
  induction f1 with
  | zero => intro f2 l h1 h2; omega
  | succ f ih =>
    intro f2 l h1 h2
    cases f2 with
    | zero => omega
    | succ f2' =>
      simp only [p3ChainAfterGo]
      by_cases hg : (l.takeWhile pySpace).isEmpty
      · simp only [hg, if_true]
      · simp only [hg, if_false, Bool.false_eq_true]
        split
        · rename_i w l' hp
          have ha := p3TakeWord_some_length hp
          have hb := length_takeWhile_add_dropWhile pySpace l
          have hc : (l.takeWhile pySpace).length ≠ 0 := by
            simpa [List.isEmpty_iff, List.length_eq_zero] using hg
          rw [ih f2' l' (by omega) (by omega)]
        · rfl

/-- The greedy star of the fallback pattern, with the fuel fixed at one
more than the length of the text, which is never exhausted. -/
def p3ChainAfter (l : List Char) : Option (List Char × List Char) :=
  p3ChainAfterGo (l.length + 1) l

theorem p3ChainAfter_eq (l : List Char) :
    p3ChainAfter l =
      if (l.takeWhile pySpace).isEmpty then
        match l with
        | [] => some ([], [])
        | c :: _ => if wordChar c then none else some ([], l)
      else
        match p3TakeWord (l.dropWhile pySpace) with
        | some (w, l') =>
          match p3ChainAfter l' with
          | some (e, rest) => some (l.takeWhile pySpace ++ w ++ e, rest)
          | none => some ([], l)
        | none => some ([], l) := by
  show p3ChainAfterGo (l.length + 1) l = _
  simp only [p3ChainAfterGo]
  by_cases hg : (l.takeWhile pySpace).isEmpty
  · simp only [hg, if_true]
  · simp only [hg, if_false, Bool.false_eq_true]
    split
    · rename_i w l' hp
      have ha := p3TakeWord_some_length hp
      have hb := length_takeWhile_add_dropWhile pySpace l
      have hc : (l.takeWhile pySpace).length ≠ 0 := by
        simpa [List.isEmpty_iff, List.length_eq_zero] using hg
      rw [p3ChainAfterGo_congr l.length (l'.length + 1) l' (by omega) (by omega)]
      rfl
    · rfl

theorem p3ChainAfter_some_length_aux : ∀ (n : Nat) (l e rest : List Char), l.length ≤ n →
    p3ChainAfter l = some (e, rest) → rest.length ≤ l.length := by
  intro n
  induction n with
  | zero =>
    intro l e rest hlen h
    have hl : l = [] := List.length_eq_zero.mp (Nat.le_zero.mp hlen)
    subst hl
    rw [p3ChainAfter_eq] at h
    simp at h
    simp [h.2.symm]
  | succ n ih =>
    intro l e rest hlen h
    rw [p3ChainAfter_eq] at h
    split at h
    · split at h
      · rw [Option.some.injEq] at h
        cases h
        simp
      · split at h
        · exact absurd h (by simp)
        · rw [Option.some.injEq] at h
          cases h
          simp
    · rename_i hgap
      split at h
      · rename_i w l' hw
        split at h
        · rename_i e' rest' hrec
          rw [Option.some.injEq] at h
          cases h
          have h1 := p3TakeWord_some_length hw
          have h2 := dropWhile_length_le pySpace l
          have h4 := ih l' _ _ (by omega) hrec
          omega
        · rw [Option.some.injEq] at h
          cases h
          simp
      · rw [Option.some.injEq] at h
        cases h
        simp

theorem p3ChainAfter_some_length {l e rest : List Char}
    (h : p3ChainAfter l = some (e, rest)) : rest.length ≤ l.length :=
  p3ChainAfter_some_length_aux l.length l e rest (Nat.le_refl _) h

/-- One full match attempt of the fallback pattern at a position passing
the leading word-boundary test: a first capitalized word, then the greedy
chain. Fails when the chain cannot close at any word. -/
def p3Try (l : List Char) : Option (List Char × List Char) :=
  match p3TakeWord l with
  | some (w, l') =>
    match p3ChainAfter l' with
    | some (e, rest) => some (w ++ e, rest)
    | none => none
  | none => none

theorem p3Try_some_length {l g rest : List Char}
    (h : p3Try l = some (g, rest)) : rest.length < l.length := by
  unfold p3Try at h
  split at h
  · rename_i w l' hw
    split at h
    · rename_i e rest' hrec
      rw [Option.some.injEq] at h
      cases h
      have h1 := p3TakeWord_some_length hw
      have h2 := p3ChainAfter_some_length hrec
      omega
    · exact absurd h (by simp)
  · exact absurd h (by simp)

/-- Fuel-indexed scanner for re.findall of the fallback pattern: scan left
to right; at each position that passes the word-boundary test (the
previous character, when any, is not a word character) attempt a match; on
success emit the captured group and resume after it, otherwise advance one
character. The Boolean records whether the previous character is a word
character. -/
def p3ScanGo : Nat → List Char → Bool → List (List Char)
  | 0, _, _ => []
  | _ + 1, [], _ => []
  | fuel + 1, c :: cs, prevWord =>
    if !prevWord && isUpperAZ c then
      match p3Try (c :: cs) with
      | some (g, rest) => g :: p3ScanGo fuel rest true
      | none => p3ScanGo fuel cs (wordChar c)
    else p3ScanGo fuel cs (wordChar c)

theorem p3ScanGo_congr : ∀ (f1 f2 : Nat) (l : List Char) (b : Bool),
    l.length ≤ f1 → l.length ≤ f2 → p3ScanGo f1 l b = p3ScanGo f2 l b := by
  intro f1
  induction f1 with
  | zero =>
    intro f2 l b h1 h2
    have hl : l = [] := by cases l <;> simp_all
    subst hl
    cases f2 <;> rfl
  | succ f ih =>
    intro f2 l b h1 h2
    cases l with
    | nil => cases f2 <;> rfl
    | cons c cs =>
      cases f2 with
      | zero => simp at h2
      | succ f2' =>
        simp only [p3ScanGo]
        simp only [List.length_cons] at h1 h2
        by_cases hb : (!b && isUpperAZ c) = true
        · simp only [hb, if_true]
          split
          · rename_i g rest hp
            have hl := p3Try_some_length hp
            simp only [List.length_cons] at hl
            rw [ih f2' rest true (by omega) (by omega)]
          · rw [ih f2' cs (wordChar c) (by omega) (by omega)]
        · simp only [hb, if_false, Bool.false_eq_true]
          rw [ih f2' cs (wordChar c) (by omega) (by omega)]

/-- re.findall of the fallback pattern, with the fuel fixed at the length
of the text, which the scanner never exhausts. -/
def p3Scan (l : List Char) (prevWord : Bool) : List (List Char) :=
  p3ScanGo l.length l prevWord

theorem p3Scan_nil (b : Bool) : p3Scan [] b = [] := rfl

theorem p3Scan_cons (c : Char) (cs : List Char) (b : Bool) :
    p3Scan (c :: cs) b =
      if !b && isUpperAZ c then
        match p3Try (c :: cs) with
        | some (g, rest) => g :: p3Scan rest true
        | none => p3Scan cs (wordChar c)
      else p3Scan cs (wordChar c) := by
  show p3ScanGo ((c :: cs).length) (c :: cs) b = _
  simp only [List.length_cons, p3ScanGo]
  by_cases hb : (!b && isUpperAZ c) = true
  · simp only [hb, if_true]
    split
    · rename_i g rest hp
      have hl := p3Try_some_length hp
      simp only [List.length_cons] at hl
      rw [p3ScanGo_congr cs.length rest.length rest true (by omega) (by omega)]
      rfl
    · rfl
  · simp only [hb, if_false, Bool.false_eq_true]
    rfl

/-- Fuel-indexed version of Python str.split with no argument: the
whitespace-separated words. -/
def pyWordsGo : Nat → List Char → List (List Char)
  | 0, _ => []
  | _ + 1, [] => []
  | fuel + 1, c :: cs =>
    if pySpace c then pyWordsGo fuel cs
    else (c :: cs.takeWhile (fun d => !pySpace d)) :: pyWordsGo fuel (cs.dropWhile (fun d => !pySpace d))

theorem pyWordsGo_congr : ∀ (f1 f2 : Nat) (l : List Char),
    l.length ≤ f1 → l.length ≤ f2 → pyWordsGo f1 l = pyWordsGo f2 l := by
  intro f1
  induction f1 with
  | zero =>
    intro f2 l h1 h2
    have hl : l = [] := by cases l <;> simp_all
    subst hl
    cases f2 <;> rfl
  | succ f ih =>
    intro f2 l h1 h2
    cases l with
    | nil => cases f2 <;> rfl
    | cons c cs =>
      cases f2 with
      | zero => simp at h2
      | succ f2' =>
        simp only [pyWordsGo]
        simp only [List.length_cons] at h1 h2
        have hd := dropWhile_length_le (fun d => !pySpace d) cs
        by_cases hc : pySpace c
        · simp only [hc, if_true]
          rw [ih f2' cs (by omega) (by omega)]
        · simp only [hc, if_false, Bool.false_eq_true]
          rw [ih f2' (cs.dropWhile (fun d => !pySpace d)) (by omega) (by omega)]

/-- Python str.split with no argument, with the fuel fixed at the length
of the text. -/
def pyWords (l : List Char) : List (List Char) :=
  pyWordsGo l.length l

theorem pyWords_nil : pyWords [] = [] := rfl

theorem pyWords_cons (c : Char) (cs : List Char) :
    pyWords (c :: cs) =
      if pySpace c then pyWords cs
      else (c :: cs.takeWhile (fun d => !pySpace d)) :: pyWords (cs.dropWhile (fun d => !pySpace d)) := by
  show pyWordsGo ((c :: cs).length) (c :: cs) = _
  simp only [List.length_cons, pyWordsGo]
  have hd := dropWhile_length_le (fun d => !pySpace d) cs
  by_cases hc : pySpace c
  · simp only [hc, if_true]
    rfl
  · simp only [hc, if_false, Bool.false_eq_true]
    rw [pyWordsGo_congr cs.length (cs.dropWhile (fun d => !pySpace d)).length
      (cs.dropWhile (fun d => !pySpace d)) (by omega) (by omega)]
    rfl

/-- One structured character-update record, as produced by
CharacterExtractor.parse_extraction. -/
structure CharacterUpdate where
  character : List Char
  update : List Char
deriving DecidableEq, Repr

/-- The per-section step of the primary pass: strip the captured name and
the chunk, and if both are non-empty, delete the timestamp-heading matches
from the chunk, strip again, and keep the record when the result is
non-empty. -/
def sectionRecord (g chunk : List Char) : Option CharacterUpdate :=
  let name := pyStrip g
  let content := pyStrip chunk
  if name.isEmpty || content.isEmpty then none
  else
    let u := pyStrip (subUpdate content true)
    if u.isEmpty then none else some ⟨name, u⟩

/-- The records produced by the primary (structured-format) pass. -/
def primaryRecords (text : List Char) : List CharacterUpdate :=
  ((splitHeads text true).2).filterMap (fun p => sectionRecord p.1 p.2)

/-- The dedup-and-filter loop of the fallback: walk the candidate names in
order; emit a record for a name not seen before whose whitespace-separated
word count is at most three, with the entire raw input text as its update
body; names failing the word-count test are skipped without being marked
seen. -/
def fallbackGo (text : List Char) : List (List Char) → List (List Char) → List CharacterUpdate
  | [], _ => []
  | n :: ns, seen =>
    if n ∉ seen ∧ (pyWords n).length ≤ 3 then
      ⟨n, text⟩ :: fallbackGo text ns (n :: seen)
    else fallbackGo text ns seen

/-- The records produced by the fallback heuristic. -/
def fallbackRecords (text : List Char) : List CharacterUpdate :=
  fallbackGo text (p3Scan text false) []

/-- CharacterExtractor.parse_extraction: the primary structured pass, then
the fallback heuristic when the primary pass produced no records. -/
def parse_extraction (text : List Char) : List CharacterUpdate :=
  let updates := primaryRecords text
  if updates.isEmpty then fallbackRecords text else updates

/-!
Model of src/backend/services/context_aggregator.py. File reads either
succeed with content or fail; the Python code catches every exception and
substitutes a sentinel string built from the exception text. Paths are the
joined path strings; the similarity-index plugin data file is modeled by a
probe recording its existence and parse outcome, since JSON parsing of the
third-party file is outside the embedded core.
-/

/-- Outcome of reading one file path: content on success, otherwise the
text of the raised exception. -/
inductive ReadResult where
  | ok (content : List Char)
  | err (msg : List Char)
deriving DecidableEq, Repr

/-- Rendering of one read outcome as ContextAggregator._read_file returns
it: the content, or on any failure the bracketed diagnostic sentinel. -/
def readOutcome (r : ReadResult) : List Char :=
  match r with
  | .ok content => content
  | .err e => txt "[Error reading file: " ++ e ++ txt "]"

/-- The error sentinel for a failed read with exception text e. -/
def errSentinel (e : List Char) : List Char :=
  txt "[Error reading file: " ++ e ++ txt "]"

/-- Path join as in pathlib: parent, separator, child. -/
def joinPath (vault rel : List Char) : List Char := vault ++ '/' :: rel

/-- ContextAggregator._read_file over an abstract file system. -/
def read_file (fs : List Char → ReadResult) (p : List Char) : List Char :=
  readOutcome (fs p)

/-- Probe of the third-party similarity-index data file: absent, present
but unreadable or unparseable (with the exception text), or present and
parseable. -/
inductive SCProbe where
  | absent
  | unparseable (e : List Char)
  | parseable
deriving DecidableEq, Repr

/-- ContextAggregator._get_smart_connections: a fixed placeholder when the
data file is absent, a diagnostic placeholder carrying the error when
loading fails, and a fixed placeholder when it parses. -/
def get_smart_connections (probe : SCProbe) : List Char :=
  match probe with
  | .absent => txt "[Smart Connections: No data found - ensure plugin is installed and has indexed your vault]"
  | .unparseable e => txt "[Smart Connections: Error loading data - " ++ e ++ txt "]"
  | .parseable => txt "[Smart Connections data loaded - similarity search available]"

/-- The continuation context bundle returned by
ContextAggregator.get_chapter_context: a fixed-shape record binding all
five named resources to strings. -/
structure ChapterContext where
  smart_connections : List Char
  book2 : List Char
  story_bible : List Char
  extractions : List Char
  sliding_window : List Char
deriving DecidableEq, Repr

/-- ContextAggregator.get_chapter_context. -/
def get_chapter_context (fs : List Char → ReadResult) (probe : SCProbe)
    (vault_path story_bible_path extractions_path sliding_window_path book2_path : List Char) :
    ChapterContext :=
  { smart_connections := get_smart_connections probe
    book2 := read_file fs (joinPath vault_path book2_path)
    story_bible := read_file fs (joinPath vault_path story_bible_path)
    extractions := read_file fs (joinPath vault_path extractions_path)
    sliding_window := read_file fs (joinPath vault_path sliding_window_path) }

/-- State of the character-notes folder: whether it exists, and the
(file stem, read outcome) pairs of its markdown files in enumeration
order. -/
structure CharFolder where
  present : Bool
  mdFiles : List (List Char × ReadResult)
deriving DecidableEq, Repr

/-- ContextAggregator._get_all_character_notes: the empty mapping when the
folder does not exist, otherwise one (stem, content) entry per markdown
file, each content read through _read_file. -/
def get_all_character_notes (folder : CharFolder) : List (List Char × List Char) :=
  if folder.present then folder.mdFiles.map (fun p => (p.1, readOutcome p.2)) else []

/-- The separator placed between formatted character notes. -/
def noteSep : List Char := txt "\n---\n\n"

/-- One formatted character-note section: the heading line bearing the
name, then the note body, then a newline. -/
def chunkOf (p : List Char × List Char) : List Char :=
  txt "## " ++ p.1 ++ '\n' :: (p.2 ++ ['\n'])

/-- Joining formatted sections with the separator, as str.join does. -/
def joinChunks : List (List Char) → List Char
  | [] => []
  | [c] => c
  | c :: d :: rest => c ++ (noteSep ++ joinChunks (d :: rest))

/-- ContextAggregator._format_character_notes. -/
def format_character_notes (notes : List (List Char × List Char)) : List Char :=
  if notes.isEmpty then txt "[No character notes found]"
  else joinChunks (notes.map chunkOf)

/-!
The inverse side of the character-note round-trip stated by the
specification: re-splitting the formatted block on the separator and
reading each section back. The splitter is Python str.split on the
separator; the section reader undoes the formatting of one section.
-/

/-- Fuel-indexed splitter on every non-overlapping occurrence of the
separator, leftmost first, as Python str.split does. -/
def splitOnSepGo : Nat → List Char → List (List Char)
  | 0, _ => [[]]
  | _ + 1, [] => [[]]
  | fuel + 1, c :: cs =>
    if noteSep.isPrefixOf (c :: cs) then
      [] :: splitOnSepGo fuel ((c :: cs).drop noteSep.length)
    else
      match splitOnSepGo fuel cs with
      | h :: t => (c :: h) :: t
      | [] => [[c]]

theorem splitOnSepGo_congr : ∀ (f1 f2 : Nat) (l : List Char),
    l.length ≤ f1 → l.length ≤ f2 → splitOnSepGo f1 l = splitOnSepGo f2 l := by
  intro f1
  induction f1 with
  | zero =>
    intro f2 l h1 h2
    have hl : l = [] := by cases l <;> simp_all
    subst hl
    cases f2 <;> rfl
  | succ f ih =>
    intro f2 l h1 h2
    cases l with
    | nil => cases f2 <;> rfl
    | cons c cs =>
      cases f2 with
      | zero => simp at h2
      | succ f2' =>
        simp only [splitOnSepGo]
        simp only [List.length_cons] at h1 h2
        by_cases hp : noteSep.isPrefixOf (c :: cs)
        · simp only [hp, if_true]
          have hsep : noteSep.length = 6 := by decide
          have hd : ((c :: cs).drop noteSep.length).length ≤ cs.length := by
            simp only [List.length_drop, List.length_cons, hsep]
            omega
          rw [ih f2' ((c :: cs).drop noteSep.length) (by omega) (by omega)]
        · simp only [hp, if_false, Bool.false_eq_true]
          rw [ih f2' cs (by omega) (by omega)]

/-- Python str.split on the separator, with the fuel fixed at the length
of the text. -/
def splitOnSep (l : List Char) : List (List Char) :=
  splitOnSepGo l.length l

theorem splitOnSep_nil : splitOnSep [] = [[]] := rfl

theorem splitOnSep_cons (c : Char) (cs : List Char) :
    splitOnSep (c :: cs) =
      if noteSep.isPrefixOf (c :: cs) then
        [] :: splitOnSep ((c :: cs).drop noteSep.length)
      else
        match splitOnSep cs with
        | h :: t => (c :: h) :: t
        | [] => [[c]] := by
  show splitOnSepGo ((c :: cs).length) (c :: cs) = _
  simp only [List.length_cons, splitOnSepGo]
  by_cases hp : noteSep.isPrefixOf (c :: cs)
  · simp only [hp, if_true]
    have hsep : noteSep.length = 6 := by decide
    have hd : ((c :: cs).drop noteSep.length).length ≤ cs.length := by
      simp only [List.length_drop, List.length_cons, hsep]
      omega
    rw [splitOnSepGo_congr cs.length ((c :: cs).drop noteSep.length).length
      ((c :: cs).drop noteSep.length) (by omega) (by omega)]
    rfl
  · simp only [hp, if_false, Bool.false_eq_true]
    rfl

/-- Reading one formatted section back: the heading marker, the name up to
the end of the heading line, then the body followed by the trailing
newline the formatter appended. -/
def parseChunk (l : List Char) : Option (List Char × List Char) :=
  if (txt "## ").isPrefixOf l then
    let r := l.drop 3
    let n := r.takeWhile (fun d => d != '\n')
    match r.dropWhile (fun d => d != '\n') with
    | '\n' :: b =>
      match b.reverse with
      | '\n' :: rb => some (n, rb.reverse)
      | _ => none
    | _ => none
  else none

/-- Reading every section of a split block back; fails when any section
does not have the formatted shape. -/
def parseChunks : List (List Char) → Option (List (List Char × List Char))
  | [] => some []
  | c :: cs =>
    match parseChunk c with
    | some p =>
      match parseChunks cs with
      | some ps => some (p :: ps)
      | none => none
    | none => none

/-- Re-splitting a formatted block on the separator and reading every
section back. -/
def unformatNotes (l : List Char) : Option (List (List Char × List Char)) :=
  parseChunks (splitOnSep l)

/-- Claim C6: resource resolution never raises to its caller: for every
path whose read fails, the read returns the sentinel string bracketing the
cause, and in particular a string containing the word Error, instead of
propagating the exception. Totality is by construction of read_file; the
theorem identifies the returned value on every failing path. -/
theorem claim_C6 (fs : List Char → ReadResult) (p e : List Char) (h : fs p = .err e) :
    read_file fs p = errSentinel e ∧
    ∃ x y, read_file fs p = x ++ (txt "Error" ++ y) := by
  have h1 : read_file fs p = errSentinel e := by
    simp [read_file, readOutcome, errSentinel, h]
  refine ⟨h1, ['['], txt " reading file: " ++ e ++ txt "]", ?_⟩
  rw [h1]
  rfl

/-- Witness for claim C6 at a concrete failing file system. -/
theorem claim_C6_witness :
    read_file (fun _ => ReadResult.err (txt "boom")) (txt "p") = errSentinel (txt "boom") :=
  (claim_C6 (fun _ => ReadResult.err (txt "boom")) (txt "p") (txt "boom") rfl).1

/-- Claim C7: for a non-existent character folder the note listing is the
empty mapping rather than an error, likewise for an existing folder with
no markdown files, and formatting an empty note set yields exactly the
fixed placeholder string. -/
theorem claim_C7 (folder : CharFolder) :
    (folder.present = false → get_all_character_notes folder = []) ∧
    (folder.mdFiles = [] → get_all_character_notes folder = []) ∧
    format_character_notes [] = txt "[No character notes found]" := by
  refine ⟨?_, ?_, rfl⟩
  · intro h
    simp [get_all_character_notes, h]
  · intro h
    simp [get_all_character_notes, h]

/-- Witness for claim C7 at a concrete absent folder. -/
theorem claim_C7_witness :
    get_all_character_notes ⟨false, []⟩ = [] ∧
    format_character_notes [] = txt "[No character notes found]" :=
  ⟨(claim_C7 ⟨false, []⟩).1 rfl, (claim_C7 ⟨false, []⟩).2.2⟩

/-- Claim C8: the continuation context always contains all five named
resources, each bound to a string (this is the fixed shape of the
ChapterContext record, whose five fields the first conjunct exhibits), and
when every underlying read fails each read field degrades to its own error
sentinel while the similarity field carries its placeholder; no partial
bundle exists and, the functions being total, no exception escapes. -/
theorem claim_C8 (fs : List Char → ReadResult) (probe : SCProbe)
    (vault sb ex sw b2 : List Char)
    (hfail : ∀ p, ∃ msg, fs p = .err msg) :
    (get_chapter_context fs probe vault sb ex sw b2 =
      { smart_connections := get_smart_connections probe
        book2 := read_file fs (joinPath vault b2)
        story_bible := read_file fs (joinPath vault sb)
        extractions := read_file fs (joinPath vault ex)
        sliding_window := read_file fs (joinPath vault sw) }) ∧
    ∃ m1 m2 m3 m4,
      get_chapter_context fs probe vault sb ex sw b2 =
        { smart_connections := get_smart_connections probe
          book2 := errSentinel m1
          story_bible := errSentinel m2
          extractions := errSentinel m3
          sliding_window := errSentinel m4 } := by
  refine ⟨rfl, ?_⟩
  obtain ⟨m1, h1⟩ := hfail (joinPath vault b2)
  obtain ⟨m2, h2⟩ := hfail (joinPath vault sb)
  obtain ⟨m3, h3⟩ := hfail (joinPath vault ex)
  obtain ⟨m4, h4⟩ := hfail (joinPath vault sw)
  refine ⟨m1, m2, m3, m4, ?_⟩
  simp [get_chapter_context, read_file, readOutcome, errSentinel, h1, h2, h3, h4]

/-- Witness for claim C8 at a concrete file system on which every read
fails: the bundle carries all five fields, each bound to the string its
resolution produces. -/
theorem claim_C8_witness :
    get_chapter_context (fun _ => ReadResult.err (txt "gone")) SCProbe.absent
        (txt "v") (txt "sb") (txt "ex") (txt "sw") (txt "b2") =
      { smart_connections := get_smart_connections SCProbe.absent
        book2 := errSentinel (txt "gone")
        story_bible := errSentinel (txt "gone")
        extractions := errSentinel (txt "gone")
        sliding_window := errSentinel (txt "gone") } := by
  have h := (claim_C8 (fun _ => ReadResult.err (txt "gone")) SCProbe.absent
    (txt "v") (txt "sb") (txt "ex") (txt "sw") (txt "b2")
    (fun _ => ⟨txt "gone", rfl⟩)).1
  rw [h]
  decide

theorem isPrefixOf_self_append : ∀ (l t : List Char), l.isPrefixOf (l ++ t) = true := by
  intro l
  induction l with
  | nil =>
    intro t
    simp [List.isPrefixOf]
  | cons c cs ih =>
    intro t
    simp [List.isPrefixOf, ih t]

theorem noteSep_not_prefix_pair {d e : Char} {cs : List Char} (he : e ≠ '-') :
    noteSep.isPrefixOf (d :: e :: cs) = false := by
  simp [noteSep, txt, List.isPrefixOf]
  intro _ h
  exact absurd h.symm he

theorem noteSep_not_prefix_single (d : Char) :
    noteSep.isPrefixOf [d] = false := by
  simp [noteSep, txt, List.isPrefixOf]

theorem splitOnSep_append_sep (c1 rest : List Char) (h : '-' ∉ c1) :
    splitOnSep (c1 ++ (noteSep ++ rest)) = c1 :: splitOnSep rest := by
  induction c1 with
  | nil =>
    rw [List.nil_append]
    rw [show noteSep ++ rest = '\n' :: (txt "---\n\n" ++ rest) from rfl, splitOnSep_cons]
    have hp : noteSep.isPrefixOf ('\n' :: (txt "---\n\n" ++ rest)) = true := by
      rw [show ('\n' :: (txt "---\n\n" ++ rest)) = noteSep ++ rest from rfl]
      exact isPrefixOf_self_append noteSep rest
    rw [hp]
    simp only [if_true]
    rw [show ('\n' :: (txt "---\n\n" ++ rest)) = noteSep ++ rest from rfl]
    rw [List.drop_left]
  | cons d c1' ih =>
    have hd : '-' ∉ c1' := fun hx => h (List.mem_cons_of_mem d hx)
    rw [List.cons_append, splitOnSep_cons]
    have hp : noteSep.isPrefixOf (d :: (c1' ++ (noteSep ++ rest))) = false := by
      cases c1' with
      | nil =>
        rw [List.nil_append]
        rw [show noteSep ++ rest = '\n' :: (txt "---\n\n" ++ rest) from rfl]
        exact noteSep_not_prefix_pair (by decide)
      | cons x c1'' =>
        rw [List.cons_append]
        exact noteSep_not_prefix_pair (fun hx => h (by simp [hx]))
    rw [hp]
    simp only [Bool.false_eq_true, if_false]
    rw [ih hd]

theorem splitOnSep_no_dash (c : List Char) (h : '-' ∉ c) : splitOnSep c = [c] := by
  induction c with
  | nil => rfl
  | cons d cs ih =>
    rw [splitOnSep_cons]
    have hp : noteSep.isPrefixOf (d :: cs) = false := by
      cases cs with
      | nil => exact noteSep_not_prefix_single d
      | cons e cs' => exact noteSep_not_prefix_pair (fun hx => h (by simp [hx]))
    rw [hp]
    simp only [Bool.false_eq_true, if_false]
    rw [ih (fun hx => h (List.mem_cons_of_mem d hx))]

theorem splitOnSep_joinChunks : ∀ (chunks : List (List Char)), chunks ≠ [] →
    (∀ c ∈ chunks, '-' ∉ c) → splitOnSep (joinChunks chunks) = chunks := by
  intro chunks
  induction chunks with
  | nil => intro h; exact absurd rfl h
  | cons c rest ih =>
    intro _ hcl
    cases rest with
    | nil =>
      rw [show joinChunks [c] = c from rfl]
      exact splitOnSep_no_dash c (hcl c (by simp))
    | cons d rest' =>
      rw [show joinChunks (c :: d :: rest') = c ++ (noteSep ++ joinChunks (d :: rest')) from rfl]
      rw [splitOnSep_append_sep c _ (hcl c (by simp))]
      rw [ih (by simp) (fun x hx => hcl x (List.mem_cons_of_mem c hx))]

theorem takeWhile_to_newline (n z : List Char) (h : '\n' ∉ n) :
    (n ++ '\n' :: z).takeWhile (fun d => d != '\n') = n ∧
    (n ++ '\n' :: z).dropWhile (fun d => d != '\n') = '\n' :: z := by
  induction n with
  | nil => simp [List.takeWhile, List.dropWhile]
  | cons c n' ih =>
    have hc : c ≠ '\n' := fun hx => h (by simp [hx])
    have ih' := ih (fun hx => h (List.mem_cons_of_mem c hx))
    simp only [List.cons_append, List.takeWhile_cons, List.dropWhile_cons]
    simp [hc, ih'.1, ih'.2]

theorem parseChunk_chunkOf (n b : List Char) (hn : '\n' ∉ n) :
    parseChunk (chunkOf (n, b)) = some (n, b) := by
  have hshape : chunkOf (n, b) = '#' :: '#' :: ' ' :: (n ++ '\n' :: (b ++ ['\n'])) := rfl
  rw [hshape]
  have hpre : (txt "## ").isPrefixOf ('#' :: '#' :: ' ' :: (n ++ '\n' :: (b ++ ['\n']))) = true := by
    simp [txt, List.isPrefixOf]
  unfold parseChunk
  rw [hpre]
  simp only [if_true]
  have hdrop : ('#' :: '#' :: ' ' :: (n ++ '\n' :: (b ++ ['\n']))).drop 3 = n ++ '\n' :: (b ++ ['\n']) := rfl
  rw [hdrop]
  have ht := takeWhile_to_newline n (b ++ ['\n']) hn
  rw [ht.1, ht.2]
  have hrev : (b ++ ['\n']).reverse = '\n' :: b.reverse := by
    simp [List.reverse_append]
  show (match (b ++ ['\n']).reverse with
    | '\n' :: rb => some (n, rb.reverse)
    | _ => none) = some (n, b)
  rw [hrev]
  show some (n, b.reverse.reverse) = some (n, b)
  rw [List.reverse_reverse]

/-- Claim C9 as stated is false: for a non-empty note set whose body
contains the separator pattern, formatting and re-splitting on the
separator does not recover the pairs; the body is cut at the spurious
separator occurrence and the second piece does not even parse as a
section. -/
theorem claim_C9_counterexample :
    unformatNotes (format_character_notes [(txt "A", txt "x\n---\n\ny")]) ≠
      some [(txt "A", txt "x\n---\n\ny")] := by
  decide

/-- Claim C9, amended: for every non-empty note set whose names are
single-line and in which neither names nor bodies contain the dash
character (so the separator cannot occur except at the join points),
formatting with the character-note formatter and re-splitting the block on
the separator recovers the same ordered sequence of (name, body) pairs. -/
theorem claim_C9 (notes : List (List Char × List Char)) (hne : notes ≠ [])
    (hcl : ∀ p ∈ notes, '\n' ∉ p.1 ∧ '-' ∉ p.1 ∧ '-' ∉ p.2) :
    unformatNotes (format_character_notes notes) = some notes := by
  have hempty : notes.isEmpty = false := by
    cases notes with
    | nil => exact absurd rfl hne
    | cons p ps => rfl
  unfold unformatNotes format_character_notes
  rw [hempty]
  simp only [Bool.false_eq_true, if_false]
  rw [splitOnSep_joinChunks (notes.map chunkOf)
    (by simp [hne])
    (by
      intro c hc
      rw [List.mem_map] at hc
      obtain ⟨p, hp, hcp⟩ := hc
      obtain ⟨_, hn, hb⟩ := hcl p hp
      rw [← hcp]
      simp [chunkOf, txt, List.mem_append, List.mem_cons, hn, hb])]
  clear hempty hne
  induction notes with
  | nil => rfl
  | cons p ps ih =>
    obtain ⟨hn, _, _⟩ := hcl p (by simp)
    rw [List.map_cons]
    show parseChunks (chunkOf p :: ps.map chunkOf) = some (p :: ps)
    unfold parseChunks
    obtain ⟨n, b⟩ := p
    rw [parseChunk_chunkOf n b hn]
    rw [ih (fun q hq => hcl q (List.mem_cons_of_mem _ hq))]

/-- Witness for the amended claim C9 at a concrete two-note set. -/
theorem claim_C9_witness :
    unformatNotes (format_character_notes
        [(txt "Alice", txt "Brave and loyal"), (txt "Bob", txt "Sneaky")]) =
      some [(txt "Alice", txt "Brave and loyal"), (txt "Bob", txt "Sneaky")] :=
  claim_C9 [(txt "Alice", txt "Brave and loyal"), (txt "Bob", txt "Sneaky")]
    (by decide) (by decide)

/-!
Toolkit about stripping, line flags and the places where the two heading
patterns cannot match, used for the round-trip theorems about the primary
pass.
-/

theorem lstrip_eq_self {l : List Char} (h : pyStrip l = l) : l.dropWhile pySpace = l := by
  have h1 : (l.dropWhile pySpace).length ≤ l.length := dropWhile_length_le _ _
  have h2 : (pyStrip l).length ≤ (l.dropWhile pySpace).length := by
    unfold pyStrip rstrip lstrip
    calc ((l.dropWhile pySpace).reverse.dropWhile pySpace).reverse.length
        = ((l.dropWhile pySpace).reverse.dropWhile pySpace).length := List.length_reverse _
      _ ≤ (l.dropWhile pySpace).reverse.length := dropWhile_length_le _ _
      _ = (l.dropWhile pySpace).length := List.length_reverse _
  have h3 : (pyStrip l).length = l.length := by rw [h]
  exact (List.dropWhile_sublist pySpace).eq_of_length (by omega)

theorem rstrip_rev {l : List Char} (h : pyStrip l = l) :
    l.reverse.dropWhile pySpace = l.reverse := by
  have hl : l.dropWhile pySpace = l := lstrip_eq_self h
  have h3 : rstrip l = l := by
    have : pyStrip l = rstrip l := by
      unfold pyStrip lstrip
      rw [hl]
    rw [← this, h]
  have := congrArg List.reverse h3
  simpa [rstrip, List.reverse_reverse] using this

theorem head_not_space {c : Char} {cs : List Char} (h : pyStrip (c :: cs) = c :: cs) :
    pySpace c = false := by
  have hl := lstrip_eq_self h
  by_contra hc
  rw [Bool.not_eq_false] at hc
  rw [List.dropWhile_cons, hc] at hl
  simp only [if_true] at hl
  have h1 := dropWhile_length_le pySpace cs
  have h2 := congrArg List.length hl
  simp only [List.length_cons] at h2
  omega

theorem rev_head_not_space {l : List Char} (h : pyStrip l = l) (hne : l ≠ []) :
    ∃ c cs, l.reverse = c :: cs ∧ pySpace c = false := by
  have hr := rstrip_rev h
  obtain ⟨c, cs, hc⟩ : ∃ c cs, l.reverse = c :: cs := by
    cases hl : l.reverse with
    | nil => rw [List.reverse_eq_nil_iff] at hl; exact absurd hl hne
    | cons c cs => exact ⟨c, cs, rfl⟩
  refine ⟨c, cs, hc, ?_⟩
  by_contra hsp
  rw [Bool.not_eq_false] at hsp
  rw [hc, List.dropWhile_cons, hsp] at hr
  simp only [if_true] at hr
  have h1 := dropWhile_length_le pySpace cs
  have h2 := congrArg List.length hr
  simp only [List.length_cons] at h2
  omega

theorem rstrip_append {x b : List Char} (h : pyStrip b = b) (hne : b ≠ []) :
    rstrip (x ++ b) = x ++ b := by
  obtain ⟨c, cs, hc, hsp⟩ := rev_head_not_space h hne
  unfold rstrip
  rw [List.reverse_append, hc, List.cons_append, List.dropWhile_cons, hsp]
  simp only [Bool.false_eq_true, if_false]
  rw [← List.cons_append, ← hc, ← List.reverse_append, List.reverse_reverse]

theorem rstrip_append_ws {x : List Char} {c : Char} (h : pySpace c = true) :
    rstrip (x ++ [c]) = rstrip x := by
  unfold rstrip
  rw [List.reverse_append]
  show ((c :: x.reverse).dropWhile pySpace).reverse = _
  rw [List.dropWhile_cons, h]
  simp only [if_true]

theorem pyStrip_cons_ws {c : Char} {x : List Char} (h : pySpace c = true) :
    pyStrip (c :: x) = pyStrip x := by
  unfold pyStrip lstrip
  rw [List.dropWhile_cons, h]
  simp only [if_true]

theorem pyStrip_cons_not_ws_head {c : Char} {x : List Char} (h : pySpace c = false) :
    (c :: x).dropWhile pySpace = c :: x := by
  rw [List.dropWhile_cons, h]
  simp only [Bool.false_eq_true, if_false]

theorem p1Match_not_hash {c : Char} (r : List Char) (h : c ≠ '#') :
    p1Match (c :: r) = none := by
  cases r with
  | nil => rfl
  | cons b r' => simp [p1Match, h]

theorem p1Match_not_hash2 {b : Char} (a : Char) (r : List Char) (h : b ≠ '#') :
    p1Match (a :: b :: r) = none := by
  simp [p1Match, h]

theorem p1Match_no_space {r : List Char} (h : (r.takeWhile pySpace).isEmpty = true) :
    p1Match ('#' :: '#' :: r) = none := by
  simp [p1Match, h]

theorem p2Match_not_hash {c : Char} (r : List Char) (h : c ≠ '#') :
    p2Match (c :: r) = none := by
  cases r with
  | nil => rfl
  | cons b r2 =>
    cases r2 with
    | nil => rfl
    | cons d r3 => simp [p2Match, h]

/-- Whether the position just after a piece of text is a line start, given
whether the position at its beginning is one. -/
def endFlag : List Char → Bool → Bool
  | [], f => f
  | c :: cs, _ => endFlag cs (c == '\n')

theorem endFlag_append (x y : List Char) (f : Bool) :
    endFlag (x ++ y) f = endFlag y (endFlag x f) := by
  induction x generalizing f with
  | nil => rfl
  | cons c cs ih =>
    simp only [List.cons_append, endFlag]
    exact ih _

theorem endFlag_concat (x : List Char) (c : Char) (f : Bool) :
    endFlag (x ++ [c]) f = (c == '\n') := by
  rw [endFlag_append]
  rfl

/-- Cleanliness of a stretch of text for the heading split: at no line
start inside it (the flag tracks line starts) can a heading match begin,
nor can one begin at a line-start suffix of it continuing into whatever
follows. The dirty shapes are a line-start hash mark ending the text, a
line-start pair of hash marks ending the text, and a line-start pair of
hash marks followed by a whitespace character. -/
def cleanAt : List Char → Bool → Bool
  | [], _ => true
  | c :: cs, flag =>
    (if flag && (c == '#') then
      match cs with
      | [] => false
      | d :: ds =>
        if d == '#' then
          match ds with
          | [] => false
          | e :: _ => !(pySpace e)
        else true
    else true) && cleanAt cs (c == '\n')

/-- Cleanliness of a section body for both heading patterns: no line of it
begins with a hash mark at all. -/
def bodyClean : List Char → Bool → Bool
  | [], _ => true
  | c :: cs, flag => (!(flag && c == '#')) && bodyClean cs (c == '\n')

theorem bodyClean_cleanAt : ∀ (l : List Char) (f : Bool),
    bodyClean l f = true → cleanAt l f = true := by
  intro l
  induction l with
  | nil => intro f _; rfl
  | cons c cs ih =>
    intro f h
    simp only [bodyClean, Bool.and_eq_true, Bool.not_eq_true', Bool.and_eq_false_iff] at h
    obtain ⟨h1, h2⟩ := h
    simp only [cleanAt, Bool.and_eq_true]
    refine ⟨?_, ih (c == '\n') h2⟩
    rcases h1 with hf | hc
    · simp [hf]
    · simp [hc]

theorem bodyClean_append (x y : List Char) (f : Bool)
    (hx : bodyClean x f = true) (hy : bodyClean y (endFlag x f) = true) :
    bodyClean (x ++ y) f = true := by
  induction x generalizing f with
  | nil => exact hy
  | cons c cs ih =>
    simp only [bodyClean, Bool.and_eq_true] at hx
    simp only [List.cons_append, bodyClean, Bool.and_eq_true]
    exact ⟨hx.1, ih (c == '\n') hx.2 hy⟩

/-- Scanning a clean stretch of text finds no heading match inside it: the
split of the concatenation copies the stretch into the current chunk and
continues on the remainder with the line flag the stretch leaves. -/
theorem splitHeads_skip : ∀ (q z : List Char) (flag : Bool), cleanAt q flag = true →
    splitHeads (q ++ z) flag =
      (q ++ (splitHeads z (endFlag q flag)).1, (splitHeads z (endFlag q flag)).2) := by
  intro q
  induction q with
  | nil => intro z flag _; simp [endFlag]
  | cons c cs ih =>
    intro z flag h
    simp only [cleanAt, Bool.and_eq_true] at h
    obtain ⟨h1, h2⟩ := h
    have hnone : flag = true → p1Match (c :: (cs ++ z)) = none := by
      intro hf
      subst hf
      by_cases hc : c = '#'
      · subst hc
        simp only [Bool.true_and, beq_self_eq_true, if_true] at h1
        cases cs with
        | nil => exact absurd h1 (by simp)
        | cons d ds =>
          by_cases hd : d = '#'
          · subst hd
            simp only [beq_self_eq_true, if_true] at h1
            cases ds with
            | nil => exact absurd h1 (by simp)
            | cons e es =>
              simp at h1
              rw [List.cons_append, List.cons_append]
              exact p1Match_no_space (by simp [List.takeWhile_cons, h1])
          · rw [List.cons_append]
            exact p1Match_not_hash2 _ _ hd
      · exact p1Match_not_hash _ hc
    rw [List.cons_append, splitHeads_cons]
    show _ = (c :: (cs ++ (splitHeads z (endFlag cs (c == '\n'))).1),
      (splitHeads z (endFlag cs (c == '\n'))).2)
    cases flag with
    | false =>
      simp only [Bool.false_eq_true, if_false]
      rw [ih z (c == '\n') h2]
    | true =>
      simp only [if_true]
      rw [hnone rfl]
      show (c :: (splitHeads (cs ++ z) (c == '\n')).1, (splitHeads (cs ++ z) (c == '\n')).2) = _
      rw [ih z (c == '\n') h2]

/-- Scanning a body-clean stretch of text deletes nothing: the deletion
pass copies the stretch and continues on the remainder with the line flag
the stretch leaves. -/
theorem subUpdate_skip : ∀ (q z : List Char) (flag : Bool), bodyClean q flag = true →
    subUpdate (q ++ z) flag = q ++ subUpdate z (endFlag q flag) := by
  intro q
  induction q with
  | nil => intro z flag _; simp [endFlag]
  | cons c cs ih =>
    intro z flag h
    simp only [bodyClean, Bool.and_eq_true, Bool.not_eq_true', Bool.and_eq_false_iff] at h
    obtain ⟨h1, h2⟩ := h
    rw [List.cons_append, subUpdate_cons]
    show _ = c :: (cs ++ subUpdate z (endFlag cs (c == '\n')))
    cases flag with
    | false =>
      simp only [Bool.false_eq_true, if_false]
      rw [ih z (c == '\n') h2]
    | true =>
      have hc : c ≠ '#' := by
        rcases h1 with hf | hc
        · exact absurd hf (by simp)
        · simpa using hc
      simp only [if_true]
      rw [p2Match_not_hash _ hc]
      show c :: subUpdate (cs ++ z) (c == '\n') = _
      rw [ih z (c == '\n') h2]

/-- When the text after an occurrence of the word begins with a whitespace
run that contains no newline before its first non-whitespace character,
the tail of the deletion pattern fails at that occurrence. -/
theorem dropThroughLastNewline_none : ∀ (u w : List Char),
    (∃ x ∈ u, pySpace x = false) → '\n' ∉ u →
    dropThroughLastNewline (u ++ w) = none := by
  intro u
  induction u with
  | nil =>
    intro w hx _
    obtain ⟨x, hx1, _⟩ := hx
    exact absurd hx1 (List.not_mem_nil x)
  | cons c cs ih =>
    intro w hx hn
    by_cases hc : pySpace c
    · have hcs : ∃ x ∈ cs, pySpace x = false := by
        obtain ⟨x, hx1, hx2⟩ := hx
        cases List.mem_cons.mp hx1 with
        | inl he =>
          subst he
          rw [hc] at hx2
          cases hx2
        | inr hm => exact ⟨x, hm, hx2⟩
      have hrec := ih w hcs (fun hm => hn (List.mem_cons_of_mem c hm))
      have hcn : c ≠ '\n' := fun he => hn (by simp [he])
      simp only [List.cons_append, dropThroughLastNewline, List.append_eq]
      rw [hrec]
      simp [hc, hcn]
    · simp only [List.cons_append, dropThroughLastNewline, List.append_eq]
      simp [hc]

/-- The lazy scan finds the final occurrence of the word, the one directly
followed by the newline: every earlier occurrence fails because the text
between it and the final occurrence contains a non-whitespace character
and no newline, and the scan can step over every character of the prefix
since none of them is a newline. -/
theorem searchUpd_final : ∀ (a : List Char) (b0 : Char) (b' : List Char),
    '\n' ∉ a → pySpace b0 = false →
    searchUpd (a ++ (updChars ++ '\n' :: b0 :: b')) = some (b0 :: b') := by
  intro a
  induction a with
  | nil =>
    intro b0 b' _ hb
    rw [List.nil_append]
    show searchUpd ('U' :: 'p' :: 'd' :: 'a' :: 't' :: 'e' :: '\n' :: b0 :: b') = _
    rw [searchUpd]
    have hpre : updChars.isPrefixOf ('U' :: 'p' :: 'd' :: 'a' :: 't' :: 'e' :: '\n' :: b0 :: b') = true := by
      simp [updChars, txt, List.isPrefixOf]
    rw [hpre]
    simp only [if_true]
    show (match dropThroughLastNewline ('\n' :: b0 :: b') with
      | some rest => some rest
      | none => if 'U' = '\n' then none else searchUpd ('p' :: 'd' :: 'a' :: 't' :: 'e' :: '\n' :: b0 :: b')) = _
    have hd : dropThroughLastNewline ('\n' :: b0 :: b') = some (b0 :: b') := by
      simp only [dropThroughLastNewline, hb]
      simp [show pySpace '\n' = true from by decide]
    rw [hd]
  | cons c a' ih =>
    intro b0 b' hn hb
    have hc : c ≠ '\n' := fun hx => hn (by simp [hx])
    have ihh := ih b0 b' (fun hm => hn (List.mem_cons_of_mem c hm)) hb
    rw [List.cons_append, searchUpd]
    by_cases hp : updChars.isPrefixOf (c :: (a' ++ (updChars ++ '\n' :: b0 :: b'))) = true
    · rw [hp]
      simp only [if_true]
      have hshape : c :: (a' ++ (updChars ++ '\n' :: b0 :: b')) =
          ((c :: a') ++ updChars) ++ ('\n' :: b0 :: b') := by
        simp [List.append_assoc]
      have hdrop : (c :: (a' ++ (updChars ++ '\n' :: b0 :: b'))).drop 6 =
          ((c :: a') ++ updChars).drop 6 ++ ('\n' :: b0 :: b') := by
        rw [hshape, List.drop_append_eq_append_drop]
        have hlen : ((c :: a') ++ updChars).length = a'.length + 7 := by
          simp [updChars, txt]
        rw [show 6 - ((c :: a') ++ updChars).length = 0 by omega]
        rfl
      have hu : ∃ x ∈ ((c :: a') ++ updChars).drop 6, pySpace x = false := by
        refine ⟨'e', ?_, by decide⟩
        have : (c :: a') ++ updChars = ((c :: a') ++ txt "Updat") ++ ['e'] := by
          simp [updChars, txt]
        rw [this, List.drop_append_eq_append_drop]
        refine List.mem_append_right _ ?_
        rw [show 6 - ((c :: a') ++ txt "Updat").length = 0 by simp [txt]]
        simp
      have hnn : '\n' ∉ ((c :: a') ++ updChars).drop 6 := by
        intro hm
        have := List.drop_subset 6 _ hm
        cases List.mem_append.mp this with
        | inl hmem =>
          cases List.mem_cons.mp hmem with
          | inl he => exact hc he.symm
          | inr hmm => exact hn (List.mem_cons_of_mem c hmm)
        | inr hmem => simp [updChars, txt] at hmem
      have hno := dropThroughLastNewline_none _ ('\n' :: b0 :: b') hu hnn
      rw [hdrop, hno]
      simp only []
      rw [if_neg hc]
      exact ihh
    · rw [Bool.not_eq_true] at hp
      rw [hp]
      simp only [Bool.false_eq_true, if_false]
      rw [if_neg hc]
      exact ihh

/-- The deletion pattern matches a whole timestamp heading line followed
directly by a non-whitespace body: everything from the three hash marks
through the newline ending the line is consumed, the body is what
remains. -/
theorem p2Match_heading (ts : List Char) (b0 : Char) (b' : List Char)
    (hts : ts ≠ []) (hstrip : pyStrip ts = ts) (hnl : '\n' ∉ ts) (hb : pySpace b0 = false) :
    p2Match ('#' :: '#' :: '#' :: (' ' :: (ts ++ (txt " - Update" ++ '\n' :: b0 :: b')))) =
      some (b0 :: b') := by
  obtain ⟨t0, ts', hts0⟩ : ∃ t0 ts', ts = t0 :: ts' := by
    cases ts with
    | nil => exact absurd rfl hts
    | cons t0 ts' => exact ⟨t0, ts', rfl⟩
  have ht0 : pySpace t0 = false := by
    rw [hts0] at hstrip
    exact head_not_space hstrip
  unfold p2Match
  simp only [show ('#' = '#' ∧ '#' = '#' ∧ '#' = '#') = True by simp, if_true]
  have htake : ((' ' :: (ts ++ (txt " - Update" ++ '\n' :: b0 :: b'))).takeWhile pySpace).isEmpty = false := by
    rw [List.takeWhile_cons, show pySpace ' ' = true from by decide]
    simp
  rw [htake]
  simp only [Bool.false_eq_true, if_false]
  have hdropw : (' ' :: (ts ++ (txt " - Update" ++ '\n' :: b0 :: b'))).dropWhile pySpace =
      ts ++ (txt " - Update" ++ '\n' :: b0 :: b') := by
    rw [List.dropWhile_cons, show pySpace ' ' = true from by decide]
    simp only [if_true]
    rw [hts0, List.cons_append, List.dropWhile_cons, ht0]
    simp
  rw [hdropw]
  have hshape : ts ++ (txt " - Update" ++ '\n' :: b0 :: b') =
      (ts ++ txt " - ") ++ (updChars ++ '\n' :: b0 :: b') := by
    simp [updChars, txt, List.append_assoc]
  rw [hshape]
  refine searchUpd_final (ts ++ txt " - ") b0 b' ?_ hb
  intro hm
  cases List.mem_append.mp hm with
  | inl h1 => exact hnl h1
  | inr h2 => simp [txt] at h2

/-- The timestamp heading line in the format the extraction prompt
prescribes, with its terminating newline. -/
def hdg (ts : List Char) : List Char :=
  '#' :: '#' :: '#' :: ' ' :: (ts ++ txt " - Update\n")

theorem cleanAt_concat_nl : ∀ (m : List Char), '\n' ∉ m →
    cleanAt (m ++ ['\n']) false = true := by
  intro m
  induction m with
  | nil =>
    intro _
    rfl
  | cons c cs ih =>
    intro h
    have hc : c ≠ '\n' := fun hx => h (by simp [hx])
    rw [List.cons_append]
    simp only [cleanAt, Bool.and_eq_true]
    refine ⟨by simp, ?_⟩
    rw [show (c == '\n') = false by simpa using hc]
    exact ih (fun hm => h (List.mem_cons_of_mem c hm))

theorem cleanAt_hdg (ts : List Char) (hnl : '\n' ∉ ts) :
    cleanAt (hdg ts) true = true := by
  have hsplit : txt " - Update\n" = txt " - Update" ++ ['\n'] := by decide
  have hshape : hdg ts = '#' :: '#' :: '#' :: ' ' :: (ts ++ txt " - Update\n") := rfl
  rw [hshape]
  simp only [cleanAt, Bool.and_eq_true]
  refine ⟨by rfl, by rfl, by rfl, by rfl, ?_⟩
  rw [hsplit, show (' ' == '\n') = false from by decide, ← List.append_assoc]
  apply cleanAt_concat_nl
  intro hm
  cases List.mem_append.mp hm with
  | inl h => exact hnl h
  | inr h => simp [txt] at h

theorem endFlag_hdg (ts : List Char) (f : Bool) : endFlag (hdg ts) f = true := by
  have hshape : hdg ts = ('#' :: '#' :: '#' :: ' ' :: (ts ++ txt " - Update")) ++ ['\n'] := by
    simp [hdg, txt, List.append_assoc]
  rw [hshape, endFlag_concat]
  rfl

theorem endFlag_stripped {b : List Char} (h : pyStrip b = b) (hne : b ≠ []) (f : Bool) :
    endFlag b f = false := by
  obtain ⟨c, cs, hc, hsp⟩ := rev_head_not_space h hne
  have hb : b = cs.reverse ++ [c] := by
    have := congrArg List.reverse hc
    rwa [List.reverse_reverse, List.reverse_cons] at this
  rw [hb, endFlag_concat]
  have : c ≠ '\n' := by
    intro he
    rw [he] at hsp
    exact absurd hsp (by decide)
  simpa using this

/-- Well-formedness of a (name, body) pair for the structured round-trip:
the name is non-empty, single-line and stripped; the body is non-empty,
stripped, and no line of it begins with a hash mark. -/
def wfPair (p : List Char × List Char) : Prop :=
  p.1 ≠ [] ∧ pyStrip p.1 = p.1 ∧ '\n' ∉ p.1 ∧
  p.2 ≠ [] ∧ pyStrip p.2 = p.2 ∧ bodyClean p.2 true = true

instance (p : List Char × List Char) : Decidable (wfPair p) := by
  unfold wfPair
  infer_instance

/-- Well-formedness of the timestamp text: non-empty, stripped,
single-line. -/
def wfTs (ts : List Char) : Prop := ts ≠ [] ∧ pyStrip ts = ts ∧ '\n' ∉ ts

instance (ts : List Char) : Decidable (wfTs ts) := by
  unfold wfTs
  infer_instance

/-- One block in the output format the extraction prompt prescribes: the
level-2 heading line bearing the character name, the level-3 timestamp
heading line, then the body. -/
def formatSection (ts : List Char) (p : List Char × List Char) : List Char :=
  txt "## " ++ (p.1 ++ '\n' :: (hdg ts ++ p.2))

/-- The blocks for a list of (name, body) pairs, one per line group. -/
def formatPairs (ts : List Char) : List (List Char × List Char) → List Char
  | [] => []
  | [p] => formatSection ts p
  | p :: q :: rest => formatSection ts p ++ '\n' :: formatPairs ts (q :: rest)

/-- The heading match at the start of a formatted section: it captures
exactly the name and consumes the heading line up to its newline. -/
theorem p1Match_section (n w : List Char) (hne : n ≠ []) (hstrip : pyStrip n = n)
    (hnl : '\n' ∉ n) :
    p1Match ('#' :: '#' :: (' ' :: (n ++ '\n' :: w))) = some (n, '\n' :: w) := by
  obtain ⟨n0, n', hn0⟩ : ∃ n0 n', n = n0 :: n' := by
    cases n with
    | nil => exact absurd rfl hne
    | cons n0 n' => exact ⟨n0, n', rfl⟩
  have h0 : pySpace n0 = false := by
    rw [hn0] at hstrip
    exact head_not_space hstrip
  unfold p1Match
  simp only [show ('#' = '#' ∧ '#' = '#') = True by simp, if_true]
  have htake : ((' ' :: (n ++ '\n' :: w)).takeWhile pySpace).isEmpty = false := by
    rw [List.takeWhile_cons, show pySpace ' ' = true from by decide]
    simp
  rw [htake]
  simp only [Bool.false_eq_true, if_false]
  have hdropw : (' ' :: (n ++ '\n' :: w)).dropWhile pySpace = n ++ '\n' :: w := by
    rw [List.dropWhile_cons, show pySpace ' ' = true from by decide]
    simp only [if_true]
    rw [hn0, List.cons_append, List.dropWhile_cons, h0]
    simp
  rw [hdropw]
  have hemp : (n ++ '\n' :: w).isEmpty = false := by
    rw [hn0]
    rfl
  rw [hemp]
  simp only [Bool.false_eq_true, if_false]
  have ht := takeWhile_to_newline n w hnl
  rw [ht.1, ht.2]
  simp

/-- The per-section step of the primary pass on one formatted chunk: the
timestamp heading line is deleted and the stripped body is returned with
the name. The chunk is what the split produces for this section: a leading
newline, the timestamp heading line, the body, and, for every section but
the last, the newline separating it from the next heading. -/
theorem sectionRecord_format (ts n b t' : List Char)
    (ht1 : ts ≠ []) (ht2 : pyStrip ts = ts) (ht3 : '\n' ∉ ts)
    (hn1 : n ≠ []) (hn2 : pyStrip n = n)
    (hb1 : b ≠ []) (hb2 : pyStrip b = b) (hb3 : bodyClean b true = true)
    (ht' : t' = [] ∨ t' = ['\n']) :
    sectionRecord n ('\n' :: (hdg ts ++ (b ++ t'))) = some ⟨n, b⟩ := by
  obtain ⟨n0, n', hn0⟩ : ∃ n0 n', n = n0 :: n' := by
    cases n with
    | nil => exact absurd rfl hn1
    | cons a c => exact ⟨a, c, rfl⟩
  obtain ⟨b0, b', hb0⟩ : ∃ b0 b', b = b0 :: b' := by
    cases b with
    | nil => exact absurd rfl hb1
    | cons a c => exact ⟨a, c, rfl⟩
  have hsp0 : pySpace b0 = false := by
    exact head_not_space (hb0 ▸ hb2)
  have hcontent : pyStrip ('\n' :: (hdg ts ++ (b ++ t'))) = hdg ts ++ b := by
    rw [pyStrip_cons_ws (by decide)]
    have hl : (hdg ts ++ (b ++ t')).dropWhile pySpace = hdg ts ++ (b ++ t') := by
      rw [show hdg ts ++ (b ++ t') =
        '#' :: (('#' :: '#' :: ' ' :: (ts ++ txt " - Update\n")) ++ (b ++ t')) from rfl]
      exact pyStrip_cons_not_ws_head (by decide)
    unfold pyStrip lstrip
    rw [hl]
    rcases ht' with h | h
    · subst h
      rw [List.append_nil]
      exact rstrip_append hb2 hb1
    · subst h
      rw [show hdg ts ++ (b ++ ['\n']) = (hdg ts ++ b) ++ ['\n'] from by
        rw [List.append_assoc]]
      rw [rstrip_append_ws (by decide)]
      exact rstrip_append hb2 hb1
  have hshape2 : hdg ts ++ b =
      '#' :: '#' :: '#' :: (' ' :: (ts ++ (txt " - Update" ++ '\n' :: b0 :: b'))) := by
    rw [hb0]
    show '#' :: '#' :: '#' :: ' ' :: ((ts ++ txt " - Update\n") ++ (b0 :: b')) = _
    rw [List.append_assoc]
    rfl
  have hsub : subUpdate (hdg ts ++ b) true = b := by
    rw [hshape2, subUpdate_cons]
    simp only [if_true]
    rw [p2Match_heading ts b0 b' ht1 ht2 ht3 hsp0]
    show subUpdate (b0 :: b') true = b
    have hskip := subUpdate_skip (b0 :: b') [] true (by rw [← hb0]; exact hb3)
    rw [List.append_nil] at hskip
    rw [hskip]
    show (b0 :: b') ++ [] = b
    rw [List.append_nil, hb0]
  have he1 : n.isEmpty = false := by rw [hn0]; rfl
  have he2 : (hdg ts ++ b).isEmpty = false := by rw [hshape2]; rfl
  have he3 : b.isEmpty = false := by rw [hb0]; rfl
  simp only [sectionRecord, hn2, hcontent, hsub, hb2, he1, he2, he3]
  simp

/-- The (name, chunk) pairs the heading split produces on a formatted
block: one pair per section, the chunk carrying the timestamp heading
line, the body, and the separating newline for every section but the
last. -/
def sectionsOf (ts : List Char) : List (List Char × List Char) → List (List Char × List Char)
  | [] => []
  | [p] => [(p.1, '\n' :: (hdg ts ++ (p.2 ++ [])))]
  | p :: q :: rest => (p.1, '\n' :: (hdg ts ++ (p.2 ++ ['\n']))) :: sectionsOf ts (q :: rest)

theorem splitHeads_formatPairs (ts : List Char) (hts : wfTs ts) :
    ∀ ps, ps ≠ [] → (∀ p ∈ ps, wfPair p) →
      splitHeads (formatPairs ts ps) true = ([], sectionsOf ts ps) := by
  intro ps
  induction ps with
  | nil =>
    intro h
    exact absurd rfl h
  | cons p rest ih =>
    intro _ hwf
    obtain ⟨n, b⟩ := p
    obtain ⟨hn1, hn2, hn3, hb1, hb2, hb3⟩ := hwf (n, b) (by simp)
    have key : ∀ X, splitHeads (formatSection ts (n, b) ++ X) true =
        ([], (n, '\n' :: (hdg ts ++ (b ++ (splitHeads X false).1))) :: (splitHeads X false).2) := by
      intro X
      have hshape : formatSection ts (n, b) ++ X =
          '#' :: '#' :: (' ' :: (n ++ '\n' :: (hdg ts ++ (b ++ X)))) := by
        show (txt "## " ++ (n ++ '\n' :: (hdg ts ++ b))) ++ X = _
        rw [List.append_assoc]
        show '#' :: '#' :: ' ' :: ((n ++ '\n' :: (hdg ts ++ b)) ++ X) = _
        rw [List.append_assoc]
        simp [List.append_assoc]
      rw [hshape, splitHeads_cons]
      simp only [if_true]
      rw [p1Match_section n (hdg ts ++ (b ++ X)) hn1 hn2 hn3]
      show ([], (n, (splitHeads ('\n' :: (hdg ts ++ (b ++ X))) false).1) ::
        (splitHeads ('\n' :: (hdg ts ++ (b ++ X))) false).2) = _
      rw [splitHeads_cons]
      simp only [Bool.false_eq_true, if_false]
      rw [show (('\n' : Char) == '\n') = true from rfl]
      rw [splitHeads_skip (hdg ts) (b ++ X) true (cleanAt_hdg ts hts.2.2)]
      rw [endFlag_hdg]
      rw [splitHeads_skip b X true (bodyClean_cleanAt b true hb3)]
      rw [endFlag_stripped hb2 hb1]
    cases rest with
    | nil =>
      have h0 : formatPairs ts [(n, b)] = formatSection ts (n, b) ++ [] := by
        rw [List.append_nil]
        rfl
      rw [h0, key []]
      rfl
    | cons q rest' =>
      have h0 : formatPairs ts ((n, b) :: q :: rest') =
          formatSection ts (n, b) ++ ('\n' :: formatPairs ts (q :: rest')) := rfl
      rw [h0, key ('\n' :: formatPairs ts (q :: rest'))]
      rw [splitHeads_cons]
      simp only [Bool.false_eq_true, if_false]
      rw [show (('\n' : Char) == '\n') = true from rfl]
      rw [ih (by simp) (fun x hx => hwf x (List.mem_cons_of_mem _ hx))]
      rfl

theorem filterMap_sectionsOf (ts : List Char) (hts : wfTs ts) :
    ∀ ps, (∀ p ∈ ps, wfPair p) →
      (sectionsOf ts ps).filterMap (fun p => sectionRecord p.1 p.2) =
        ps.map (fun p => (⟨p.1, p.2⟩ : CharacterUpdate)) := by
  intro ps
  induction ps with
  | nil => intro _; rfl
  | cons p rest ih =>
    intro hwf
    obtain ⟨n, b⟩ := p
    obtain ⟨hn1, hn2, hn3, hb1, hb2, hb3⟩ := hwf (n, b) (by simp)
    cases rest with
    | nil =>
      show List.filterMap _ [((n, b).1, '\n' :: (hdg ts ++ ((n, b).2 ++ [])))] = _
      rw [List.filterMap_cons]
      rw [show sectionRecord (n, b).1 ('\n' :: (hdg ts ++ ((n, b).2 ++ []))) =
        some ⟨n, b⟩ from sectionRecord_format ts n b [] hts.1 hts.2.1 hts.2.2
          hn1 hn2 hb1 hb2 hb3 (Or.inl rfl)]
      rfl
    | cons q rest' =>
      show List.filterMap _ (((n, b).1, '\n' :: (hdg ts ++ ((n, b).2 ++ ['\n']))) ::
        sectionsOf ts (q :: rest')) = _
      rw [List.filterMap_cons]
      rw [show sectionRecord (n, b).1 ('\n' :: (hdg ts ++ ((n, b).2 ++ ['\n']))) =
        some ⟨n, b⟩ from sectionRecord_format ts n b ['\n'] hts.1 hts.2.1 hts.2.2
          hn1 hn2 hb1 hb2 hb3 (Or.inr rfl)]
      rw [ih (fun x hx => hwf x (List.mem_cons_of_mem _ hx))]
      rfl

/-- Claim C1: structured-parse idempotence. For every timestamp text and
every list of well-formed (name, body) pairs, formatting them into the
heading format the extraction prompt prescribes and passing the result to
parse_extraction yields exactly one CharacterUpdate per pair, in order,
whose characters are the names and whose updates are the bodies; in
particular the number of records equals the number of pairs. -/
theorem claim_C1 (ts : List Char) (ps : List (List Char × List Char))
    (hts : wfTs ts) (hps : ∀ p ∈ ps, wfPair p) :
    parse_extraction (formatPairs ts ps) =
      ps.map (fun p => (⟨p.1, p.2⟩ : CharacterUpdate)) ∧
    (parse_extraction (formatPairs ts ps)).length = ps.length := by
  have hmain : parse_extraction (formatPairs ts ps) =
      ps.map (fun p => (⟨p.1, p.2⟩ : CharacterUpdate)) := by
    cases ps with
    | nil => rfl
    | cons p rest =>
      have hprim : primaryRecords (formatPairs ts (p :: rest)) =
          (p :: rest).map (fun p => (⟨p.1, p.2⟩ : CharacterUpdate)) := by
        unfold primaryRecords
        rw [splitHeads_formatPairs ts hts (p :: rest) (by simp) hps]
        exact filterMap_sectionsOf ts hts (p :: rest) hps
      unfold parse_extraction
      rw [hprim]
      rfl
  refine ⟨hmain, ?_⟩
  rw [hmain, List.length_map]

/-- Witness for claim C1 at a concrete timestamp and two concrete
pairs. -/
theorem claim_C1_witness :
    parse_extraction (formatPairs (txt "2024-01-01 12:00")
        [(txt "Alice", txt "Met Bob at the gate."), (txt "Bob", txt "Said hello.")]) =
      [⟨txt "Alice", txt "Met Bob at the gate."⟩, ⟨txt "Bob", txt "Said hello."⟩] :=
  (claim_C1 (txt "2024-01-01 12:00")
    [(txt "Alice", txt "Met Bob at the gate."), (txt "Bob", txt "Said hello.")]
    (by decide) (by decide)).1

/-- Claim C3 as stated is false on the code: a timestamp heading line that
is not the leading line of its section is removed as well; on the input
below the inner heading line disappears from the record body. -/
theorem claim_C3_counterexample :
    parse_extraction (txt "## Alice\nIntro\n### t2 - Update\nTail") =
      [⟨txt "Alice", txt "Intro\nTail"⟩] := by
  decide

/-- The general shape of a text stretch the deletion pattern matches, with
its terminating newline: three hash marks, a non-empty whitespace run,
arbitrary single-line text, the word Update, optional trailing whitespace,
then the newline. -/
def hdgLine (ws1 mid tw : List Char) : List Char :=
  '#' :: '#' :: '#' :: (ws1 ++ (mid ++ (updChars ++ (tw ++ ['\n']))))

/-- Well-formedness of the three components of a general heading line: the
whitespace run is non-empty whitespace, and all three parts are
single-line. -/
def wfHdgLine (h : List Char × List Char × List Char) : Prop :=
  h.1 ≠ [] ∧ (∀ x ∈ h.1, pySpace x = true) ∧ '\n' ∉ h.1 ∧
  '\n' ∉ h.2.1 ∧ (∀ x ∈ h.2.2, pySpace x = true) ∧ '\n' ∉ h.2.2

/-- Whether a stretch is empty or begins with a visible character. -/
def startsVisible : List Char → Bool
  | [] => true
  | c :: _ => !(pySpace c)

/-- A clean stretch of section text standing between heading lines: no
line of it begins with a hash mark, and it either is empty or starts with
a visible character, so that a preceding deletion stops exactly at its own
newline. -/
def stretchOk (x : List Char) : Prop :=
  bodyClean x true = true ∧ startsVisible x = true

instance (h : List Char × List Char × List Char) : Decidable (wfHdgLine h) := by
  unfold wfHdgLine
  infer_instance

instance (x : List Char) : Decidable (stretchOk x) := by
  unfold stretchOk
  infer_instance

theorem startsVisible_shape {x : List Char} (h : startsVisible x = true) :
    x = [] ∨ ∃ c cs, x = c :: cs ∧ pySpace c = false := by
  cases x with
  | nil => exact Or.inl rfl
  | cons c cs =>
    right
    refine ⟨c, cs, rfl, ?_⟩
    simpa [startsVisible] using h

/-- A section interleaving heading lines with clean stretches, each
heading line standing at a line start, closed by a final stretch. -/
def concatHB : List ((List Char × List Char × List Char) × List Char) → List Char → List Char
  | [], xF => xF
  | (h, x) :: rest, xF => hdgLine h.1 h.2.1 h.2.2 ++ (x ++ concatHB rest xF)

/-- The same section with every heading line deleted. -/
def concatB : List ((List Char × List Char × List Char) × List Char) → List Char → List Char
  | [], xF => xF
  | (_, x) :: rest, xF => x ++ concatB rest xF

/-- The tail of the deletion pattern consumes a single-line whitespace run
and the newline ending it, leaving exactly the following text, which must
be absent or start with a visible character. -/
theorem dropThroughLastNewline_run : ∀ (tw b : List Char),
    (∀ x ∈ tw, pySpace x = true) → '\n' ∉ tw →
    (b = [] ∨ ∃ b0 b', b = b0 :: b' ∧ pySpace b0 = false) →
    dropThroughLastNewline (tw ++ '\n' :: b) = some b := by
  intro tw
  induction tw with
  | nil =>
    intro b _ _ hb
    rcases hb with h | ⟨b0, b', hb0, hsp⟩
    · subst h
      decide
    · subst hb0
      show dropThroughLastNewline ('\n' :: b0 :: b') = some (b0 :: b')
      simp only [dropThroughLastNewline, hsp]
      simp [show pySpace '\n' = true from by decide]
  | cons c tws ih =>
    intro b htw hnw hb
    have hc : pySpace c = true := htw c (by simp)
    have ih' := ih b (fun x hx => htw x (List.mem_cons_of_mem c hx))
      (fun h => hnw (List.mem_cons_of_mem c h)) hb
    simp only [List.cons_append, dropThroughLastNewline, List.append_eq]
    rw [ih']
    simp [hc]

/-- The lazy scan finds the final occurrence of the word, the one whose
following whitespace run reaches the newline: every earlier occurrence
fails since the text between it and the final occurrence contains a
non-whitespace character and no newline. -/
theorem searchUpd_run : ∀ (a tw b : List Char), '\n' ∉ a →
    (∀ x ∈ tw, pySpace x = true) → '\n' ∉ tw →
    (b = [] ∨ ∃ b0 b', b = b0 :: b' ∧ pySpace b0 = false) →
    searchUpd (a ++ (updChars ++ (tw ++ '\n' :: b))) = some b := by
  intro a
  induction a with
  | nil =>
    intro tw b _ htw hnw hb
    rw [List.nil_append]
    show searchUpd ('U' :: 'p' :: 'd' :: 'a' :: 't' :: 'e' :: (tw ++ '\n' :: b)) = _
    rw [searchUpd]
    have hpre : updChars.isPrefixOf ('U' :: 'p' :: 'd' :: 'a' :: 't' :: 'e' :: (tw ++ '\n' :: b)) = true := by
      simp [updChars, txt, List.isPrefixOf]
    rw [hpre]
    simp only [if_true]
    show (match dropThroughLastNewline (tw ++ '\n' :: b) with
      | some rest => some rest
      | none => if 'U' = '\n' then none
          else searchUpd ('p' :: 'd' :: 'a' :: 't' :: 'e' :: (tw ++ '\n' :: b))) = _
    rw [dropThroughLastNewline_run tw b htw hnw hb]
  | cons c a' ih =>
    intro tw b hn htw hnw hb
    have hc : c ≠ '\n' := fun hx => hn (by simp [hx])
    have ihh := ih tw b (fun hm => hn (List.mem_cons_of_mem c hm)) htw hnw hb
    rw [List.cons_append, searchUpd]
    by_cases hp : updChars.isPrefixOf (c :: (a' ++ (updChars ++ (tw ++ '\n' :: b)))) = true
    · rw [hp]
      simp only [if_true]
      have hshape : c :: (a' ++ (updChars ++ (tw ++ '\n' :: b))) =
          ((c :: a') ++ updChars) ++ (tw ++ '\n' :: b) := by
        simp [List.append_assoc]
      have hdrop : (c :: (a' ++ (updChars ++ (tw ++ '\n' :: b)))).drop 6 =
          ((c :: a') ++ updChars).drop 6 ++ (tw ++ '\n' :: b) := by
        rw [hshape, List.drop_append_eq_append_drop]
        have hlen : ((c :: a') ++ updChars).length = a'.length + 7 := by
          simp [updChars, txt]
        rw [show 6 - ((c :: a') ++ updChars).length = 0 by omega]
        rfl
      have hu : ∃ x ∈ ((c :: a') ++ updChars).drop 6, pySpace x = false := by
        refine ⟨'e', ?_, by decide⟩
        have h9 : (c :: a') ++ updChars = ((c :: a') ++ txt "Updat") ++ ['e'] := by
          simp [updChars, txt]
        rw [h9, List.drop_append_eq_append_drop]
        refine List.mem_append_right _ ?_
        rw [show 6 - ((c :: a') ++ txt "Updat").length = 0 by simp [txt]]
        simp
      have hnn : '\n' ∉ ((c :: a') ++ updChars).drop 6 := by
        intro hm
        have h8 := List.drop_subset 6 _ hm
        cases List.mem_append.mp h8 with
        | inl hmem =>
          cases List.mem_cons.mp hmem with
          | inl he => exact hc he.symm
          | inr hmm => exact hn (List.mem_cons_of_mem c hmm)
        | inr hmem => simp [updChars, txt] at hmem
      have hno := dropThroughLastNewline_none _ (tw ++ '\n' :: b) hu hnn
      rw [hdrop, hno]
      simp only []
      rw [if_neg hc]
      exact ihh
    · rw [Bool.not_eq_true] at hp
      rw [hp]
      simp only [Bool.false_eq_true, if_false]
      rw [if_neg hc]
      exact ihh

theorem dropWhile_all_append : ∀ (w y : List Char), (∀ x ∈ w, pySpace x = true) →
    (w ++ y).dropWhile pySpace = y.dropWhile pySpace := by
  intro w
  induction w with
  | nil =>
    intro y _
    rfl
  | cons c cs ih =>
    intro y hall
    rw [List.cons_append, List.dropWhile_cons, hall c (by simp)]
    simp only [if_true]
    exact ih y (fun x hx => hall x (List.mem_cons_of_mem c hx))

/-- Dropping whitespace from a single-line text standing before the word
stops at its first visible character or, when there is none, at the word
itself: the remainder keeps the shape needed by the scan. -/
theorem dropWhile_ws_to_upd : ∀ (m z : List Char), '\n' ∉ m →
    ∃ a, (m ++ (updChars ++ z)).dropWhile pySpace = a ++ (updChars ++ z) ∧ '\n' ∉ a := by
  intro m
  induction m with
  | nil =>
    intro z _
    refine ⟨[], ?_, by simp⟩
    show (updChars ++ z).dropWhile pySpace = [] ++ (updChars ++ z)
    rw [List.nil_append]
    rw [show updChars ++ z = 'U' :: (txt "pdate" ++ z) from rfl]
    exact pyStrip_cons_not_ws_head (by decide)
  | cons c m' ih =>
    intro z hm
    by_cases hc : pySpace c = true
    · obtain ⟨a, ha1, ha2⟩ := ih z (fun h => hm (List.mem_cons_of_mem c h))
      refine ⟨a, ?_, ha2⟩
      rw [List.cons_append, List.dropWhile_cons, hc]
      simp only [if_true]
      exact ha1
    · rw [Bool.not_eq_true] at hc
      refine ⟨c :: m', ?_, hm⟩
      rw [List.cons_append, List.dropWhile_cons, hc]
      simp only [Bool.false_eq_true, if_false]

/-- The deletion pattern matches any heading line of the general shape
followed by absent text or text starting with a visible character, and
consumes exactly the line. -/
theorem p2Match_hdgLine (ws1 mid tw b : List Char)
    (h1 : ws1 ≠ []) (h2 : ∀ x ∈ ws1, pySpace x = true)
    (hm : '\n' ∉ mid) (h5 : ∀ x ∈ tw, pySpace x = true) (h6 : '\n' ∉ tw)
    (hb : b = [] ∨ ∃ b0 b', b = b0 :: b' ∧ pySpace b0 = false) :
    p2Match ('#' :: '#' :: '#' :: (ws1 ++ (mid ++ (updChars ++ (tw ++ '\n' :: b))))) = some b := by
  obtain ⟨w0, ws', hw0⟩ : ∃ w0 ws', ws1 = w0 :: ws' := by
    cases ws1 with
    | nil => exact absurd rfl h1
    | cons a c => exact ⟨a, c, rfl⟩
  have hw0s : pySpace w0 = true := h2 w0 (by simp [hw0])
  unfold p2Match
  simp only [show ('#' = '#' ∧ '#' = '#' ∧ '#' = '#') = True by simp, if_true]
  have htake : ((ws1 ++ (mid ++ (updChars ++ (tw ++ '\n' :: b)))).takeWhile pySpace).isEmpty = false := by
    rw [hw0, List.cons_append, List.takeWhile_cons, hw0s]
    simp
  rw [htake]
  simp only [Bool.false_eq_true, if_false]
  rw [dropWhile_all_append ws1 _ h2]
  obtain ⟨a, ha1, ha2⟩ := dropWhile_ws_to_upd mid (tw ++ '\n' :: b) hm
  rw [ha1]
  exact searchUpd_run a tw b ha2 h5 h6 hb

theorem dropThroughLastNewline_no_nl : ∀ (m : List Char), '\n' ∉ m →
    dropThroughLastNewline m = none := by
  intro m
  induction m with
  | nil =>
    intro _
    rfl
  | cons c cs ih =>
    intro h
    have hcn : c ≠ '\n' := fun hx => h (by simp [hx])
    simp only [dropThroughLastNewline]
    rw [ih (fun hm => h (List.mem_cons_of_mem c hm))]
    simp [hcn]

theorem searchUpd_no_nl : ∀ (m : List Char), '\n' ∉ m → searchUpd m = none := by
  intro m
  induction m with
  | nil =>
    intro _
    rfl
  | cons c cs ih =>
    intro h
    have hcn : c ≠ '\n' := fun hx => h (by simp [hx])
    have ih' := ih (fun hm => h (List.mem_cons_of_mem c hm))
    rw [searchUpd]
    by_cases hp : updChars.isPrefixOf (c :: cs) = true
    · rw [hp]
      simp only [if_true]
      have hd : dropThroughLastNewline ((c :: cs).drop 6) = none := by
        apply dropThroughLastNewline_no_nl
        intro hm
        exact h (List.drop_subset 6 _ hm)
      rw [hd]
      simp only []
      rw [if_neg hcn]
      exact ih'
    · rw [Bool.not_eq_true] at hp
      rw [hp]
      simp only [Bool.false_eq_true, if_false]
      rw [if_neg hcn]
      exact ih'

theorem p2Match_no_nl : ∀ (l : List Char), '\n' ∉ l → p2Match l = none := by
  intro l hl
  match l, hl with
  | [], _ => rfl
  | [a], _ => rfl
  | [a, b], _ => rfl
  | a :: b :: c :: r, hl =>
    show (if a = '#' ∧ b = '#' ∧ c = '#' then
        if (r.takeWhile pySpace).isEmpty then none
        else searchUpd (r.dropWhile pySpace)
      else none) = none
    by_cases habc : a = '#' ∧ b = '#' ∧ c = '#'
    · rw [if_pos habc]
      by_cases hw : ((r.takeWhile pySpace).isEmpty) = true
      · rw [if_pos hw]
      · rw [if_neg hw]
        apply searchUpd_no_nl
        intro hm
        have h7 : '\n' ∈ r := (List.dropWhile_sublist pySpace).subset hm
        exact hl (List.mem_cons_of_mem _ (List.mem_cons_of_mem _ (List.mem_cons_of_mem _ h7)))
    · rw [if_neg habc]

/-- The deletion pass leaves newline-free text unchanged, whatever the
line flag: the pattern needs a newline to match. -/
theorem subUpdate_no_nl : ∀ (l : List Char) (f : Bool), '\n' ∉ l → subUpdate l f = l := by
  intro l
  induction l with
  | nil =>
    intro f _
    rfl
  | cons c cs ih =>
    intro f h
    have ih' := ih (c == '\n') (fun hm => h (List.mem_cons_of_mem c hm))
    rw [subUpdate_cons]
    cases f with
    | false =>
      simp only [Bool.false_eq_true, if_false]
      rw [ih']
    | true =>
      simp only [if_true]
      rw [p2Match_no_nl (c :: cs) h]
      show c :: subUpdate cs (c == '\n') = c :: cs
      rw [ih']

/-- The deletion pass on a section interleaving well-formed heading lines
with clean stretches deletes exactly the heading lines. -/
theorem subUpdate_concatHB : ∀ (hbs : List ((List Char × List Char × List Char) × List Char))
    (xF : List Char),
    (∀ p ∈ hbs, wfHdgLine p.1 ∧ stretchOk p.2 ∧ endFlag p.2 true = true) →
    stretchOk xF →
    subUpdate (concatHB hbs xF) true = concatB hbs xF := by
  intro hbs
  induction hbs with
  | nil =>
    intro xF _ hxF
    show subUpdate xF true = xF
    have h := subUpdate_skip xF [] true hxF.1
    rw [List.append_nil] at h
    rw [h, subUpdate_nil, List.append_nil]
  | cons p rest ih =>
    intro xF hall hxF
    obtain ⟨h, x⟩ := p
    obtain ⟨hwf0, hst0, hef0⟩ := hall (h, x) (by simp)
    have hwf : wfHdgLine h := hwf0
    have hst : stretchOk x := hst0
    have hef : endFlag x true = true := hef0
    obtain ⟨hw1, hw2, hw3, hm4, ht5, ht6⟩ := hwf
    have hfollow : (x ++ concatHB rest xF) = [] ∨
        ∃ c cs, x ++ concatHB rest xF = c :: cs ∧ pySpace c = false := by
      rcases startsVisible_shape hst.2 with hx | ⟨c, cs, hx, hc⟩
      · subst hx
        rw [List.nil_append]
        cases rest with
        | nil => exact startsVisible_shape hxF.2
        | cons q qs =>
          obtain ⟨h2, x2⟩ := q
          exact Or.inr ⟨'#', _, rfl, by decide⟩
      · exact Or.inr ⟨c, cs ++ concatHB rest xF, by rw [hx, List.cons_append], hc⟩
    have hshape : concatHB ((h, x) :: rest) xF =
        '#' :: '#' :: '#' :: (h.1 ++ (h.2.1 ++ (updChars ++ (h.2.2 ++ '\n' :: (x ++ concatHB rest xF))))) := by
      show hdgLine h.1 h.2.1 h.2.2 ++ (x ++ concatHB rest xF) = _
      simp [hdgLine, List.append_assoc]
    rw [hshape, subUpdate_cons]
    simp only [if_true]
    rw [p2Match_hdgLine h.1 h.2.1 h.2.2 (x ++ concatHB rest xF) hw1 hw2 hm4 ht5 ht6 hfollow]
    show subUpdate (x ++ concatHB rest xF) true = x ++ concatB rest xF
    rw [subUpdate_skip x _ true hst.1, hef]
    rw [ih xF (fun q hq => hall q (List.mem_cons_of_mem _ hq)) hxF]

/-- Claim C3, amended: within a character section the deletion pass
removes every heading line of the matching shape, three hash marks, a
non-empty whitespace run, any single-line text ending in the word Update,
optional trailing whitespace and the terminating newline, wherever such
lines stand in the section and however many there are, not only a single
leading one (first conjunct: the section loses exactly its heading lines,
so no removed timestamp text survives into the result); and a matching
heading shape standing at the very end of the section without a trailing
newline is not removed (second conjunct). -/
theorem claim_C3 (x0 xF ws1 mid tw : List Char)
    (hbs : List ((List Char × List Char × List Char) × List Char))
    (hx0 : stretchOk x0) (hx0e : endFlag x0 true = true)
    (hhbs : ∀ p ∈ hbs, wfHdgLine p.1 ∧ stretchOk p.2 ∧ endFlag p.2 true = true)
    (hxF : stretchOk xF)
    (hws : ws1 ≠ [] ∧ (∀ x ∈ ws1, pySpace x = true) ∧ '\n' ∉ ws1)
    (hmid : '\n' ∉ mid)
    (htw : (∀ x ∈ tw, pySpace x = true) ∧ '\n' ∉ tw) :
    subUpdate (x0 ++ concatHB hbs xF) true = x0 ++ concatB hbs xF ∧
    subUpdate (x0 ++ ('#' :: '#' :: '#' :: (ws1 ++ (mid ++ (updChars ++ tw))))) true =
      x0 ++ ('#' :: '#' :: '#' :: (ws1 ++ (mid ++ (updChars ++ tw)))) := by
  constructor
  · rw [subUpdate_skip x0 _ true hx0.1, hx0e, subUpdate_concatHB hbs xF hhbs hxF]
  · rw [subUpdate_skip x0 _ true hx0.1, hx0e]
    have hnl : '\n' ∉ '#' :: '#' :: '#' :: (ws1 ++ (mid ++ (updChars ++ tw))) := by
      intro hm
      simp only [List.mem_cons, List.mem_append] at hm
      rcases hm with h | h | h | h | h | h | h
      · exact absurd h (by decide)
      · exact absurd h (by decide)
      · exact absurd h (by decide)
      · exact hws.2.2 h
      · exact hmid h
      · simp [updChars, txt] at h
      · exact htw.2 h
    rw [subUpdate_no_nl _ true hnl]

/-- Witness for the amended claim C3 at a concrete section with two
heading lines of different shapes, one standing after a stretch of body
text, plus a trailing heading shape without a newline. -/
theorem claim_C3_witness :
    subUpdate (txt "Intro line\n" ++ concatHB
        [((txt "  ", txt "2024 note ", txt " "), txt "Middle\n"),
         ((txt " ", txt "t2 - ", txt ""), [])] (txt "Tail")) true =
      txt "Intro line\n" ++ concatB
        [((txt "  ", txt "2024 note ", txt " "), txt "Middle\n"),
         ((txt " ", txt "t2 - ", txt ""), [])] (txt "Tail") ∧
    subUpdate (txt "Intro line\n" ++
        ('#' :: '#' :: '#' :: (txt " " ++ (txt "t3 - " ++ (updChars ++ txt " "))))) true =
      txt "Intro line\n" ++
        ('#' :: '#' :: '#' :: (txt " " ++ (txt "t3 - " ++ (updChars ++ txt " ")))) :=
  claim_C3 (txt "Intro line\n") (txt "Tail") (txt " ") (txt "t3 - ") (txt " ")
    [((txt "  ", txt "2024 note ", txt " "), txt "Middle\n"),
     ((txt " ", txt "t2 - ", txt ""), [])]
    (by decide) (by decide) (by decide) (by decide) (by decide) (by decide) (by decide)

/-- Claim C10: any text standing before the first heading match is
discarded by the primary pass: prepending a clean preamble that ends at a
line boundary leaves the records of the primary pass unchanged, so no
record can carry any of the preamble text. -/
theorem claim_C10 (pre s : List Char) (h1 : cleanAt pre true = true)
    (h2 : endFlag pre true = true) :
    primaryRecords (pre ++ s) = primaryRecords s ∧
    (splitHeads (pre ++ s) true).1 = pre ++ (splitHeads s true).1 := by
  have hs := splitHeads_skip pre s true h1
  rw [h2] at hs
  constructor
  · unfold primaryRecords
    rw [hs]
  · rw [hs]

/-- Witness for claim C10 at a concrete preamble and text. -/
theorem claim_C10_witness :
    primaryRecords (txt "Here are the updates.\n" ++ txt "## Alice\nHello") =
      primaryRecords (txt "## Alice\nHello") :=
  (claim_C10 (txt "Here are the updates.\n") (txt "## Alice\nHello")
    (by decide) (by decide)).1

/-- Claim C2 evaluated on the code: on the quoted input the parse returns
two records, not one: the section of Alice, whose timestamp heading line
is the last line of its section and is not followed by a newline, escapes
the deletion pattern, so Alice survives with the bare heading line as its
update, alongside the expected record of Bob. -/
theorem claim_C2_eval :
    parse_extraction (txt "## Alice\n### t - Update\n\n## Bob\n### t - Update\nSaid hello") =
      [⟨txt "Alice", txt "### t - Update"⟩, ⟨txt "Bob", txt "Said hello"⟩] ∧
    (parse_extraction (txt "## Alice\n### t - Update\n\n## Bob\n### t - Update\nSaid hello")).length = 2 := by
  constructor
  · decide
  · decide

theorem fallbackGo_mem (t : List Char) : ∀ (cands seen : List (List Char))
    (r : CharacterUpdate), r ∈ fallbackGo t cands seen →
    r.update = t ∧ r.character ∈ cands ∧ r.character ∉ seen ∧
    (pyWords r.character).length ≤ 3 := by
  intro cands
  induction cands with
  | nil =>
    intro seen r h
    simp [fallbackGo] at h
  | cons n ns ih =>
    intro seen r h
    unfold fallbackGo at h
    split at h
    · rename_i hcond
      cases List.mem_cons.mp h with
      | inl he =>
        subst he
        exact ⟨rfl, by simp, hcond.1, hcond.2⟩
      | inr hm =>
        obtain ⟨h1, h2, h3, h4⟩ := ih (n :: seen) r hm
        exact ⟨h1, List.mem_cons_of_mem _ h2, fun hs => h3 (List.mem_cons_of_mem _ hs), h4⟩
    · obtain ⟨h1, h2, h3, h4⟩ := ih seen r h
      exact ⟨h1, List.mem_cons_of_mem _ h2, h3, h4⟩

theorem fallbackGo_nodup (t : List Char) : ∀ (cands seen : List (List Char)),
    ((fallbackGo t cands seen).map CharacterUpdate.character).Nodup := by
  intro cands
  induction cands with
  | nil => intro seen; simp [fallbackGo]
  | cons n ns ih =>
    intro seen
    unfold fallbackGo
    split
    · rw [List.map_cons]
      refine List.nodup_cons.mpr ⟨?_, ih (n :: seen)⟩
      intro hmem
      rw [List.mem_map] at hmem
      obtain ⟨r, hr, hrc⟩ := hmem
      have := (fallbackGo_mem t ns (n :: seen) r hr).2.2.1
      exact this (by rw [hrc]; exact List.mem_cons_self _ _)
    · exact ih seen

theorem p3TakeWord_ne_nil {l w rest : List Char}
    (h : p3TakeWord l = some (w, rest)) : w ≠ [] := by
  match l with
  | [] => simp [p3TakeWord] at h
  | c :: cs =>
    simp only [p3TakeWord] at h
    split at h
    · split at h
      · exact absurd h (by simp)
      · rw [Option.some.injEq] at h
        cases h
        simp
    · exact absurd h (by simp)

theorem p3Try_ne_nil {l g rest : List Char}
    (h : p3Try l = some (g, rest)) : g ≠ [] := by
  unfold p3Try at h
  split at h
  · rename_i w l' hw
    split at h
    · rw [Option.some.injEq] at h
      cases h
      have := p3TakeWord_ne_nil hw
      simp [this]
    · exact absurd h (by simp)
  · exact absurd h (by simp)

theorem p3Scan_mem_ne_nil : ∀ (n : Nat) (l : List Char) (b : Bool) (g : List Char),
    l.length ≤ n → g ∈ p3Scan l b → g ≠ [] := by
  intro n
  induction n with
  | zero =>
    intro l b g hlen h
    have hl : l = [] := List.length_eq_zero.mp (Nat.le_zero.mp hlen)
    subst hl
    simp [p3Scan_nil] at h
  | succ n ih =>
    intro l b g hlen h
    cases l with
    | nil => simp [p3Scan_nil] at h
    | cons c cs =>
      rw [p3Scan_cons] at h
      simp only [List.length_cons] at hlen
      by_cases hb : (!b && isUpperAZ c) = true
      · rw [hb] at h
        simp only [if_true] at h
        cases hp : p3Try (c :: cs) with
        | some gr =>
          obtain ⟨g0, rest⟩ := gr
          rw [hp] at h
          change g ∈ g0 :: p3Scan rest true at h
          cases List.mem_cons.mp h with
          | inl he =>
            subst he
            exact p3Try_ne_nil hp
          | inr hm =>
            have hl := p3Try_some_length hp
            simp only [List.length_cons] at hl
            exact ih rest true g (by omega) hm
        | none =>
          rw [hp] at h
          change g ∈ p3Scan cs (wordChar c) at h
          exact ih cs (wordChar c) g (by omega) h
      · rw [Bool.not_eq_true] at hb
        rw [hb] at h
        simp only [Bool.false_eq_true, if_false] at h
        exact ih cs (wordChar c) g (by omega) h

/-- Claim C4: the fallback heuristic runs exactly when the primary pass
yields zero records; it emits one record per surviving candidate name with
the entire raw input text as its update body; emitted names are candidates
of at most three whitespace-separated words, deduplicated (the emitted
characters carry no duplicate, and emission follows candidate order, which
is order of first appearance); and on the quoted heading-free input the
records are Alice and Bob Carter, each with the full input as update. -/
theorem claim_C4 :
    (∀ t, (primaryRecords t).isEmpty = false → parse_extraction t = primaryRecords t) ∧
    (∀ t, (primaryRecords t).isEmpty = true → parse_extraction t = fallbackRecords t) ∧
    (∀ t r, r ∈ fallbackRecords t → r.update = t ∧ r.character ∈ p3Scan t false ∧
      (pyWords r.character).length ≤ 3) ∧
    (∀ t, ((fallbackRecords t).map CharacterUpdate.character).Nodup) ∧
    parse_extraction (txt "Alice met Bob Carter") =
      [⟨txt "Alice", txt "Alice met Bob Carter"⟩,
       ⟨txt "Bob Carter", txt "Alice met Bob Carter"⟩] := by
  refine ⟨?_, ?_, ?_, ?_, by decide⟩
  · intro t h
    simp only [parse_extraction, h, Bool.false_eq_true, if_false]
  · intro t h
    simp only [parse_extraction, h, if_true]
  · intro t r h
    obtain ⟨h1, h2, _, h4⟩ := fallbackGo_mem t (p3Scan t false) [] r h
    exact ⟨h1, h2, h4⟩
  · intro t
    exact fallbackGo_nodup t (p3Scan t false) []

/-- Witness for claim C4: its quantified conjuncts applied at a concrete
heading-free input. -/
theorem claim_C4_witness :
    parse_extraction (txt "Alice met Bob Carter") =
      fallbackRecords (txt "Alice met Bob Carter") :=
  claim_C4.2.1 (txt "Alice met Bob Carter") (by decide)

theorem sectionRecord_some {g c : List Char} {r : CharacterUpdate}
    (h : sectionRecord g c = some r) : r.character ≠ [] ∧ r.update ≠ [] := by
  simp only [sectionRecord] at h
  split at h
  · exact absurd h (by simp)
  · rename_i hcond
    split at h
    · exact absurd h (by simp)
    · rename_i hu
      rw [Option.some.injEq] at h
      cases h
      rw [Bool.or_eq_true, not_or] at hcond
      refine ⟨fun he => ?_, fun he => ?_⟩
      · have h2 : pyStrip g = [] := he
        exact hcond.1 (by rw [h2]; rfl)
      · have h2 : pyStrip (subUpdate (pyStrip c) true) = [] := he
        exact hu (by rw [h2]; rfl)

/-- Claim C5: parse_extraction is total by construction (it is a Lean
function); empty input yields the empty record list; input on which the
split finds no section and the fallback scan finds no candidate yields the
empty record list, a valid non-error outcome; and every record produced on
any input has a non-empty character and a non-empty update. -/
theorem claim_C5 :
    parse_extraction [] = [] ∧
    (∀ t, (splitHeads t true).2 = [] → p3Scan t false = [] → parse_extraction t = []) ∧
    (∀ t r, r ∈ parse_extraction t → r.character ≠ [] ∧ r.update ≠ []) := by
  refine ⟨rfl, ?_, ?_⟩
  · intro t h1 h2
    unfold parse_extraction primaryRecords fallbackRecords
    rw [h1, h2]
    rfl
  · intro t r h
    simp only [parse_extraction] at h
    split at h
    · rename_i hemp
      cases t with
      | nil => simp [fallbackRecords, p3Scan_nil, fallbackGo] at h
      | cons c cs =>
        obtain ⟨h1, h2, _, _⟩ := fallbackGo_mem (c :: cs) (p3Scan (c :: cs) false) [] r h
        constructor
        · exact p3Scan_mem_ne_nil (c :: cs).length (c :: cs) false r.character (Nat.le_refl _) h2
        · rw [h1]
          simp
    · simp only [primaryRecords, List.mem_filterMap] at h
      obtain ⟨p, _, hp⟩ := h
      exact sectionRecord_some hp

/-- Witness for claim C5: its quantified conjuncts applied at concrete
inputs. -/
theorem claim_C5_witness :
    parse_extraction (txt "...   ...") = [] ∧
    (⟨txt "Bob", txt "Said hello"⟩ : CharacterUpdate).character ≠ [] := by
  constructor
  · exact claim_C5.2.1 (txt "...   ...") (by decide) (by decide)
  · exact (claim_C5.2.2 (txt "## Bob\nSaid hello") ⟨txt "Bob", txt "Said hello"⟩ (by decide)).1
